import Mathlib

/-!
Verification development for `life.py`, an interactive navigator over a
directory-tree taxonomy.  The Python source is shallowly embedded below:

* a directory path is a list of path segments (`Path`);
* the filesystem is a finite, duplicate-free list of directory paths plus a
  descriptor store (`FS`), standing for the on-disk tree; glob enumeration of
  `base + '/*'*d` is modelled by `getNewPaths` (for `d <= 0` the Python string
  repetition produces the empty suffix, so the glob matches the base path
  itself; glob patterns skip dot-directories);
* Python `dict`s with a fixed key set (`_children_by_distance`,
  `_children_by_level`) are association lists; reading or updating a missing
  key is a `KeyError`, modelled by `Option`/`Err`;
* Python exceptions (`KeyError`, `FileNotFoundError` from a missing
  `.info.yml`) are modelled by an `Option Err` component threaded next to the
  mutated state, matching in-place mutation semantics: state changes made
  before an exception survive it;
* the scan operations additionally return a `ScanLog` recording which depths
  were enumerated by the filesystem glob and which paths each enumeration
  returned; the Python code performs exactly these filesystem accesses.

Display-only machinery (colors, prompt printing, readline completion, the
REPL loop) is external to the indexed search logic and is not modelled.
-/

deriving instance DecidableEq for Except

namespace Life

/-- A filesystem path, as a list of segments. -/
abbrev Path := List String

/-- Python `str.lower()`; the strings compared by the program are ASCII, so
per-character ASCII case mapping is exact. -/
def strLower (s : String) : String := String.mk (s.data.map Char.toLower)

/-- Python `str.upper()` (ASCII, as above). -/
def strUpper (s : String) : String := String.mk (s.data.map Char.toUpper)

/-- Python `<` on strings: lexicographic comparison of code points. -/
def strLtB : List Char → List Char → Bool
  | [], [] => false
  | [], _ :: _ => true
  | _ :: _, [] => false
  | a :: as, b :: bs =>
      if a.toNat < b.toNat then true
      else if b.toNat < a.toNat then false
      else strLtB as bs

/-- Python `str.split('..')`: split on each non-overlapping occurrence of the
two-dot separator, left to right (`acc` holds the current piece reversed). -/
def splitDots : List Char → List Char → List (List Char)
  | [], acc => [acc.reverse]
  | '.' :: '.' :: rest, acc => acc.reverse :: splitDots rest []
  | c :: rest, acc => splitDots rest (c :: acc)

/-- The contents of a `.info.yml` descriptor file: `level` is required,
`common` and `info` are optional. -/
structure Desc where
  level : String
  common : Option String := none
  info : Option String := none
deriving DecidableEq

/-- The filesystem: the set of directories (duplicate-free, as glob results
are) and the descriptor store mapping a directory to its `.info.yml` contents
(`none` when the file is absent). -/
structure FS where
  dirs : List Path
  desc : Path → Option Desc
  nodup : dirs.Nodup

/-- Python exceptions that the indexed-search code can raise:
`FileNotFoundError` from opening a missing `.info.yml`, and `KeyError` from a
dict lookup with an absent `Int` or `String` key. -/
inductive Err where
  | fileNotFound (p : Path)
  | keyErrorInt (d : Int)
  | keyErrorStr (s : String)
deriving DecidableEq

/-- `LightEntry`: one loaded node (path plus descriptor fields).  The `name`
is derived from the path's base name, see `LightEntry.name`. -/
structure LightEntry where
  path : Path
  level : String
  common : Option String
  info : Option String
deriving DecidableEq

instance : Inhabited LightEntry := ⟨⟨[], "", none, none⟩⟩

/-- `LightEntry.name`: `path.basename(basepath)`, the last path segment. -/
def LightEntry.name (e : LightEntry) : String := e.path.getLastD ""

/-- `LightEntry.__init__`: open `basepath/.info.yml`; a missing descriptor is
a `FileNotFoundError`. -/
def loadEntry (fs : FS) (p : Path) : Except Err LightEntry :=
  match fs.desc p with
  | none => .error (.fileNotFound p)
  | some d => .ok { path := p, level := d.level, common := d.common, info := d.info }

/-- The `LEVELS` table from the source: rank name, numeric order, short
display code (display colors are not modelled).  Note the source numbering
skips 12: `suborder` is 13. -/
def LEVELS : List (String × Int × String) :=
  [("life", 0, "L"), ("domain", 1, "D"), ("kingdom", 2, "K"),
   ("subkingdom", 3, "K-"), ("superphylum", 4, "P+"), ("phylum", 5, "P"),
   ("subphylum", 6, "P-"), ("superclass", 7, "C+"), ("class", 8, "C"),
   ("subclass", 9, "C-"), ("superorder", 10, "O+"), ("order", 11, "O"),
   ("suborder", 13, "O-"), ("superfamily", 14, "F+"), ("family", 15, "F"),
   ("subfamily", 16, "F-"), ("genus", 17, "G"), ("subgenus", 18, "G-"),
   ("superspecies", 19, "S+"), ("species", 20, "S"), ("subspecies", 21, "S-")]

/-- `LEVELS[l][0]`: the numeric order of a rank name (`none` models the
`KeyError` on an unknown rank). -/
def levelOrder (l : String) : Option Int :=
  (LEVELS.find? (fun t => t.1 == l)).map (fun t => t.2.1)

/-- `level_dict()`: one empty bucket per rank name, in table order. -/
def level_dict : List (String × List LightEntry) :=
  LEVELS.map (fun t => (t.1, ([] : List LightEntry)))

/-- `distance_dict()`: one empty bucket per distance in
`range(len(LEVELS))`, i.e. keys `0..20`. -/
def distance_dict : List (Int × List LightEntry) :=
  (List.range LEVELS.length).map (fun (n : Nat) => ((n : Int), ([] : List LightEntry)))

/-- `parse_level(s)`: scan the `LEVELS` table in order and return the first
rank whose full name equals `s.lower()` or whose short code equals
`s.upper()`; `None` if no rank matches. -/
def parse_level (s : String) : Option String :=
  (LEVELS.find? (fun t => t.1 == strLower s || t.2.2 == strUpper s)).map (fun t => t.1)

/-! ### Small container helpers (Python `set` and `dict` semantics) -/

/-- Python `set.add`: append the element when absent. -/
def sinsert {α : Type} [DecidableEq α] (x : α) (l : List α) : List α :=
  if x ∈ l then l else l ++ [x]

/-- A value-deduplicated copy of a list, keeping first occurrences: the
contents of `set(xs)` built from a Python list. -/
def dedupF {α : Type} [DecidableEq α] : List α → List α
  | [] => []
  | x :: rest => x :: (dedupF rest).filter (fun y => y ≠ x)

/-- Python `set.update`: append the new elements. -/
def cacheUnion (cache ps : List Path) : List Path :=
  cache ++ ps.filter (fun p => p ∉ cache)

/-- Python `range(a, b)` over integers. -/
def rangeInt (a b : Int) : List Int :=
  (List.range (b - a).toNat).map (fun (i : Nat) => a + (i : Int))

/-- Dict read `al[k]`: `none` models the `KeyError`. -/
def alGet {κ : Type} [DecidableEq κ] {β : Type} (k : κ) : List (κ × β) → Option β
  | [] => none
  | (k', v) :: rest => if k = k' then some v else alGet k rest

/-- Dict read defaulting to the empty bucket (used only in statements about
bucket contents, never in the embedded operations). -/
def alGetD {κ : Type} [DecidableEq κ] (k : κ) (al : List (κ × List LightEntry)) :
    List LightEntry :=
  (alGet k al).getD []

/-- In-place update `al[k] := f al[k]`: `none` models the `KeyError` on a
missing key; existing keys keep their position. -/
def alUpdate {κ : Type} [DecidableEq κ] {β : Type} (k : κ) (f : β → β) :
    List (κ × β) → Option (List (κ × β))
  | [] => none
  | (k', v) :: rest =>
      if k = k' then some ((k', f v) :: rest)
      else (alUpdate k f rest).map (fun l => (k', v) :: l)

/-- Dict assignment `al[k] = v` on a dict with an open key set
(`_children_by_name`): overwrite in place or append. -/
def upsert {κ : Type} [DecidableEq κ] {β : Type} (k : κ) (v : β) :
    List (κ × β) → List (κ × β)
  | [] => [(k, v)]
  | (k', v') :: rest => if k = k' then (k, v) :: rest else (k', v') :: upsert k v rest

/-! ### The Tree Index (`Entry`) -/

/-- The mutable state of one `Entry`: the indexed node plus the lazy caches.
The completion-candidate list and the prompt flag are display-only and not
modelled. -/
structure Entry where
  light : LightEntry
  path_cache : List Path
  children_by_distance : List (Int × List LightEntry)
  children_by_level : List (String × List LightEntry)
  children_by_name : List (String × LightEntry)
  levels_searched : List String
  distances_searched : List Int
  ancestors : List LightEntry
deriving DecidableEq

instance : Inhabited Entry :=
  ⟨{ light := default, path_cache := [], children_by_distance := [],
     children_by_level := [], children_by_name := [], levels_searched := [],
     distances_searched := [], ancestors := [] }⟩

/-- `Entry._get_new_paths(distance)`: directories matched by the glob
`self.path + '/*'*distance`, minus the already-seen paths.  For
`distance <= 0` the Python string repetition is empty, so the glob names the
base path itself; for positive distances the glob matches directories exactly
`distance` non-hidden segments below the base. -/
def getNewPaths (fs : FS) (base : Path) (d : Int) (cache : List Path) : List Path :=
  if d ≤ 0 then
    (if base ∈ fs.dirs then [base] else []).filter (fun p => p ∉ cache)
  else
    fs.dirs.filter (fun p =>
      decide (p.length = base.length + d.toNat) &&
      List.isPrefixOf base p &&
      (p.drop base.length).all (fun s => decide (s.data.take 1 ≠ ['.'])) &&
      decide (p ∉ cache))

/-- `Entry._add_entry(entry, distance)`: add the node to its distance bucket,
then to the bucket of its own level, then record it by name.  A missing dict
key raises mid-way, leaving the earlier mutation in place. -/
def Entry.add_entry (e : Entry) (ent : LightEntry) (d : Int) : Entry × Option Err :=
  match alUpdate d (fun b => b ++ [ent]) e.children_by_distance with
  | none => (e, some (.keyErrorInt d))
  | some cbd =>
    match alUpdate ent.level (fun b => b ++ [ent]) e.children_by_level with
    | none => ({ e with children_by_distance := cbd }, some (.keyErrorStr ent.level))
    | some cbl =>
        ({ e with children_by_distance := cbd, children_by_level := cbl,
                  children_by_name := upsert ent.name ent e.children_by_name },
         none)

/-- One enumeration of the log: the depth that was globbed and the paths the
glob returned. -/
abbrev ScanLog := List (Int × List Path)

/-- The inner loop of `_fill_distance` for one depth: load each new path and
add it at that distance; a load or bucket failure aborts, keeping the
mutations made so far (the path cache is only updated after the loop). -/
def fill_dist_batch (fs : FS) (d : Int) : Entry → List Path → Entry × Option Err
  | e, [] => (e, none)
  | e, p :: rest =>
    match loadEntry fs p with
    | .error er => (e, some er)
    | .ok ent =>
      match e.add_entry ent d with
      | (e1, some er) => (e1, some er)
      | (e1, none) => fill_dist_batch fs d e1 rest

/-- The outer loop of `_fill_distance`: for each not-yet-searched distance,
mark it searched first, then enumerate and load; on success add the whole
enumeration to the path cache. -/
def fill_dist_go (fs : FS) : List Int → Entry → ScanLog → Entry × ScanLog × Option Err
  | [], e, log => (e, log, none)
  | d :: rest, e, log =>
    match fill_dist_batch fs d { e with distances_searched := sinsert d e.distances_searched }
        (getNewPaths fs e.light.path d e.path_cache) with
    | (e1, some er) => (e1, log ++ [(d, getNewPaths fs e.light.path d e.path_cache)], some er)
    | (e1, none) =>
        fill_dist_go fs rest
          { e1 with path_cache :=
              cacheUnion e1.path_cache (getNewPaths fs e.light.path d e.path_cache) }
          (log ++ [(d, getNewPaths fs e.light.path d e.path_cache)])

/-- `Entry._fill_distance(*distances)`. -/
def fill_distance (fs : FS) (e : Entry) (ds : List Int) : Entry × ScanLog × Option Err :=
  fill_dist_go fs ((dedupF ds).filter (fun d => d ∉ e.distances_searched)) e []

/-- The first loop of `_fill_level`: mark each new level searched, then look
up its order and the indexed node's order (either lookup can `KeyError`),
folding the maximum of the signed differences into `max_dist` (initially 0). -/
def fill_level_phase1 : List String → Entry → Int → Entry × Int × Option Err
  | [], e, m => (e, m, none)
  | l :: rest, e, m =>
    match levelOrder l with
    | none =>
        ({ e with levels_searched := sinsert l e.levels_searched }, m, some (.keyErrorStr l))
    | some ol =>
      match levelOrder e.light.level with
      | none =>
          ({ e with levels_searched := sinsert l e.levels_searched }, m,
           some (.keyErrorStr e.light.level))
      | some os =>
          fill_level_phase1 rest { e with levels_searched := sinsert l e.levels_searched }
            (max (ol - os) m)

/-- The inner loop of `_fill_level` for one depth: load each new path; only
nodes whose level is among the requested levels are added (and only their
paths are cached, immediately). -/
def fill_level_batch (fs : FS) (lvls : List String) (d : Int) :
    Entry → List Path → Entry × Option Err
  | e, [] => (e, none)
  | e, p :: rest =>
    match loadEntry fs p with
    | .error er => (e, some er)
    | .ok ent =>
      if ent.level ∈ lvls then
        match e.add_entry ent d with
        | (e1, some er) => (e1, some er)
        | (e1, none) =>
            fill_level_batch fs lvls d
              { e1 with path_cache := sinsert ent.path e1.path_cache } rest
      else fill_level_batch fs lvls d e rest

/-- The scan loop of `_fill_level`: enumerate each depth (the searched-depth
set is not updated here) and filter the loaded nodes by the requested levels. -/
def fill_level_go (fs : FS) (lvls : List String) :
    List Int → Entry → ScanLog → Entry × ScanLog × Option Err
  | [], e, log => (e, log, none)
  | d :: rest, e, log =>
    match fill_level_batch fs lvls d e (getNewPaths fs e.light.path d e.path_cache) with
    | (e1, some er) => (e1, log ++ [(d, getNewPaths fs e.light.path d e.path_cache)], some er)
    | (e1, none) =>
        fill_level_go fs lvls rest e1 (log ++ [(d, getNewPaths fs e.light.path d e.path_cache)])

/-- `Entry._fill_level(*levels)`: compute `max_dist` over the newly requested
levels from the signed order differences, then scan the depths
`range(1, max_dist+1)` that are not already in `_distances_searched`. -/
def fill_level (fs : FS) (e : Entry) (ls : List String) : Entry × ScanLog × Option Err :=
  match fill_level_phase1 ((dedupF ls).filter (fun l => l ∉ e.levels_searched)) e 0 with
  | (e1, _, some er) => (e1, [], some er)
  | (e1, m, none) =>
      fill_level_go fs (dedupF ls)
        ((rangeInt 1 (m + 1)).filter (fun d => d ∉ e1.distances_searched)) e1 []

/-- Worker for `ancChain`, structurally recursive on the remaining number of
segments (each step removes the last segment, so `p.length` steps suffice). -/
def ancChainFuel (fs : FS) : Nat → Path → List LightEntry
  | 0, _ => []
  | _ + 1, [] => []
  | n + 1, x :: rest =>
    let pp := (x :: rest).dropLast
    match loadEntry fs pp with
    | .error _ => []
    | .ok ent => ancChainFuel fs n pp ++ [ent]

/-- The ancestor chain of a path, root first: repeatedly take the parent
directory and load it, stopping at the first missing descriptor (the caught
`FileNotFoundError`) or at the filesystem root. -/
def ancChain (fs : FS) (p : Path) : List LightEntry := ancChainFuel fs p.length p

/-- `Entry.__init__(basepath)`: load the node, create the empty caches, fill
distance 1, then walk the ancestor chain.  A load failure during the initial
scan propagates (the object is never produced). -/
def Entry.init (fs : FS) (p : Path) : Except Err Entry :=
  match loadEntry fs p with
  | .error er => .error er
  | .ok light =>
    match fill_distance fs
        { light := light, path_cache := [], children_by_distance := distance_dict,
          children_by_level := level_dict, children_by_name := [],
          levels_searched := [], distances_searched := [], ancestors := [] } [1] with
    | (_, _, some er) => .error er
    | (e1, _, none) => .ok { e1 with ancestors := ancChain fs p }

/-! ### The search command (`ls` / `goto` branch of `Entry.command`) -/

/-- One printed line: an error/notice message, or one listed node (rendered
by `colorized_string`, whose coloring is not modelled). -/
inductive OutLine where
  | msg (s : String)
  | entry (e : LightEntry)
deriving DecidableEq

/-- Result of scanning the argument tokens: a parse error aborts the command
with a message, otherwise the distance set, level set and name terms. -/
inductive ParseResult where
  | perr (line : OutLine)
  | parsed (ds : List Int) (ls : List String) (ns : List String)
deriving DecidableEq

/-- The first two characters of a token (`arg.startswith('-d')` tests). -/
def argTag (s : String) : List Char := s.data.take 2

/-- `arg[2:]`. -/
def argRest (s : String) : String := String.mk (s.data.drop 2)

/-- The numeric value of a digit string. -/
def digitsVal (cs : List Char) : Nat :=
  cs.foldl (fun a c => a * 10 + (c.toNat - 48)) 0

/-- Python `int(s)` on the token forms the program receives: an optional
sign followed by decimal digits (surrounding whitespace and underscore
separators, which `int` also accepts, do not occur in shell tokens and are
not modelled). -/
def parsePyInt (s : String) : Option Int :=
  match s.data with
  | [] => none
  | '-' :: rest =>
      if rest ≠ [] ∧ rest.all Char.isDigit then some (-(digitsVal rest : Int)) else none
  | '+' :: rest =>
      if rest ≠ [] ∧ rest.all Char.isDigit then some ((digitsVal rest : Int)) else none
  | cs => if cs.all Char.isDigit then some ((digitsVal cs : Int)) else none

/-- The argument loop of the `ls`/`goto` branch: `-d<n>` and `-d<a>..<b>`
extend the distance set (unparsable forms abort), `-l<level>` resolves
through `parse_level` (an unknown level aborts, naming `arg[2:]`), any other
token is a name term. -/
def parseArgsGo : List String → List Int → List String → List String → ParseResult
  | [], ds, ls, ns => .parsed ds ls ns
  | arg :: rest, ds, ls, ns =>
    if argTag arg = ['-', 'd'] then
      match parsePyInt (argRest arg) with
      | some n => parseArgsGo rest (sinsert n ds) ls ns
      | none =>
        match (splitDots (argRest arg).data []).map String.mk with
        | [a, b] =>
          match parsePyInt a, parsePyInt b with
          | some i, some f =>
              parseArgsGo rest ((rangeInt i (f + 1)).foldl (fun l x => sinsert x l) ds) ls ns
          | _, _ => .perr (.msg ("Couldn\x27t parse argument \x27" ++ arg ++ "\x27"))
        | _ => .perr (.msg ("Couldn\x27t parse argument \x27" ++ arg ++ "\x27"))
    else if argTag arg = ['-', 'l'] then
      match parse_level (argRest arg) with
      | some l => parseArgsGo rest ds (sinsert l ls) ns
      | none => .perr (.msg ("No such level \x27" ++ argRest arg ++ "\x27"))
    else parseArgsGo rest ds ls (sinsert arg ns)

/-- Token scanning of the `ls`/`goto` arguments. -/
def parseArgs (args : List String) : ParseResult := parseArgsGo args [] [] []

/-- Union of the buckets of the listed keys, with the `KeyError` on a missing
key; like Python set union, elements already accumulated are not repeated. -/
def readBuckets {κ : Type} [DecidableEq κ] (toErr : κ → Err)
    (al : List (κ × List LightEntry)) :
    List κ → List LightEntry → Except Err (List LightEntry)
  | [], acc => .ok acc
  | k :: rest, acc =>
    match alGet k al with
    | none => .error (toErr k)
    | some b => readBuckets toErr al rest (acc ++ b.filter (fun x => x ∉ acc))

/-- Case-insensitive substring test: `re.search(pat, name, re.I)` where the
name terms the program receives are literal text (regular-expression
metacharacters in a name term are not modelled; on literal patterns
`re.search` is exactly a substring test). -/
def substrI (pat s : String) : Bool :=
  ((strLower s).data.tails).any (fun t => (strLower pat).data.isPrefixOf t)

/-- Stable-enough ascending insertion by name (`matches.sort(key=name)`;
claims depend only on this being a fixed deterministic ordering). -/
def insertByName (x : LightEntry) : List LightEntry → List LightEntry
  | [] => [x]
  | y :: ys =>
      if strLtB x.name.data y.name.data then x :: y :: ys else y :: insertByName x ys

/-- Sort a match list ascending by node name. -/
def sortByName (l : List LightEntry) : List LightEntry :=
  l.foldr insertByName []

/-- The search part of the `ls`/`goto` branch, after token parsing: default
to distance 1 when neither distances nor levels were given, run both lazy
fills, read the buckets, combine (intersection when both dimensions are
present, otherwise whichever union is non-empty), and filter by the name
terms. -/
def run_query_core (fs : FS) (e : Entry) (ds : List Int) (ls0 : List String)
    (ns : List String) : Except Err (Entry × List LightEntry) :=
  match fill_distance fs e ds with
  | (_, _, some er) => .error er
  | (e1, _, none) =>
    match fill_level fs e1 ls0 with
    | (_, _, some er) => .error er
    | (e2, _, none) =>
      match readBuckets Err.keyErrorInt e2.children_by_distance ds [] with
      | .error er => .error er
      | .ok dc =>
        match readBuckets Err.keyErrorStr e2.children_by_level ls0 [] with
        | .error er => .error er
        | .ok lc =>
          .ok (e2, ((if ds ≠ [] ∧ ls0 ≠ [] then dc.filter (fun x => x ∈ lc)
                     else if dc ≠ [] then dc else lc)).filter
                 (fun c => ns.all (fun pat => substrI pat c.name)))

/-- The search part of the `ls`/`goto` branch, after token parsing: apply the
distance-1 default, then run `run_query_core`. -/
def Entry.run_query (fs : FS) (e : Entry) (ds0 : List Int) (ls0 : List String)
    (ns : List String) : Except Err (Entry × List LightEntry) :=
  run_query_core fs e (if ds0 = [] ∧ ls0 = [] then [1] else ds0) ls0 ns

/-- The `ls`/`goto` branch of `Entry.command`: parse the tokens (a parse
error prints and stays), run the query, and either list the sorted matches
(`ls`, or `goto` without a unique match, which first prints the no-unique
notice) or construct a fresh `Entry` at the unique match (`goto`). -/
def Entry.lsgoto (fs : FS) (e : Entry) (isGoto : Bool) (args : List String) :
    Except Err (Entry × List OutLine) :=
  match parseArgs args with
  | .perr line => .ok (e, [line])
  | .parsed ds ls ns =>
    match Entry.run_query fs e ds ls ns with
    | .error er => .error er
    | .ok (e1, ms) =>
      match isGoto, ms with
      | true, [m] =>
        match Entry.init fs m.path with
        | .error er => .error er
        | .ok e2 => .ok (e2, [])
      | ig, _ =>
          .ok (e1, (if ig then [OutLine.msg "No unique entry found:"] else [])
                     ++ (sortByName ms).map OutLine.entry)

/-! ### Concrete trees used as test inputs -/

/-- Root path of the concrete test tree. -/
def pLife : Path := ["Life"]

/-- A domain-level child directory. -/
def pEuk : Path := ["Life", "Eukarya"]

/-- A kingdom-level grandchild directory. -/
def pAni : Path := ["Life", "Eukarya", "Animalia"]

/-- A phylum-level great-grandchild directory. -/
def pCho : Path := ["Life", "Eukarya", "Animalia", "Chordata"]

/-- A four-node tree Life/Eukarya/Animalia/Chordata with well-formed
descriptors. -/
def fsA : FS :=
  { dirs := [pLife, pEuk, pAni, pCho],
    desc := fun p =>
      if p = pLife then some { level := "life" }
      else if p = pEuk then some { level := "domain" }
      else if p = pAni then some { level := "kingdom" }
      else if p = pCho then some { level := "phylum" }
      else none,
    nodup := by decide }

/-- A grandchild directory with no descriptor file. -/
def pBrok : Path := ["Life", "Eukarya", "Broken"]

/-- A tree whose depth-2 directory `Broken` lacks its `.info.yml`. -/
def fsB : FS :=
  { dirs := [pLife, pEuk, pBrok],
    desc := fun p =>
      if p = pLife then some { level := "life" }
      else if p = pEuk then some { level := "domain" }
      else none,
    nodup := by decide }

/-- Extract the successful value of an `Except` (used only to name states of
concrete runs that are separately proved successful). -/
def exOk {α : Type} [Inhabited α] : Except Err α → α
  | .ok a => a
  | .error _ => default

/-- The index at the root of `fsA`. -/
def eA : Entry := exOk (Entry.init fsA pLife)

/-- The index at `Animalia` (rank kingdom) in `fsA`. -/
def eAni : Entry := exOk (Entry.init fsA pAni)

/-- The index at the root of `fsB`. -/
def eB : Entry := exOk (Entry.init fsB pLife)

/-- State and match list produced by the query `eukarya` at the root of
`fsA`. -/
def c6run : Entry × List LightEntry := exOk (Entry.run_query fsA eA [] [] ["eukarya"])

/-- The navigator state after `goto eukarya` at the root of `fsA`. -/
def eGoto : Entry := (exOk (Entry.lsgoto fsA eA true ["eukarya"])).1

/-! ### Reachable index states and bucket well-formedness -/

/-- Tree Index states reachable from a successful construction by successful
scan operations. -/
inductive Reached (fs : FS) : Entry → Prop where
  | init (p : Path) (e : Entry) : Entry.init fs p = .ok e → Reached fs e
  | dist (e : Entry) (ds : List Int) (e' : Entry) (log : ScanLog) :
      Reached fs e → fill_distance fs e ds = (e', log, none) → Reached fs e'
  | level (e : Entry) (ls : List String) (e' : Entry) (log : ScanLog) :
      Reached fs e → fill_level fs e ls = (e', log, none) → Reached fs e'

/-- Every bucket holds pairwise path-distinct nodes whose paths all belong to
the given path set. -/
def bucketsOKrel (e : Entry) (C : List Path) : Prop :=
  (∀ d : Int, ((alGetD d e.children_by_distance).map LightEntry.path).Nodup ∧
     ∀ x ∈ alGetD d e.children_by_distance, x.path ∈ C)
  ∧ (∀ l : String, ((alGetD l e.children_by_level).map LightEntry.path).Nodup ∧
     ∀ x ∈ alGetD l e.children_by_level, x.path ∈ C)

/-- The cache invariant: buckets are path-duplicate-free and every stored
path has been recorded in `_path_cache`. -/
def bucketsOK (e : Entry) : Prop := bucketsOKrel e e.path_cache

/-! ### Container lemmas -/

theorem mem_sinsert {α : Type} [DecidableEq α] {x y : α} {l : List α} :
    x ∈ sinsert y l ↔ x = y ∨ x ∈ l := by
  unfold sinsert
  split
  · constructor
    · exact fun h => Or.inr h
    · rintro (rfl | h) <;> assumption
  · simp only [List.mem_append, List.mem_singleton]
    tauto

theorem self_mem_sinsert {α : Type} [DecidableEq α] (y : α) (l : List α) :
    y ∈ sinsert y l := mem_sinsert.2 (Or.inl rfl)

theorem mem_sinsert_of_mem {α : Type} [DecidableEq α] {x : α} (y : α) {l : List α}
    (h : x ∈ l) : x ∈ sinsert y l := mem_sinsert.2 (Or.inr h)

theorem mem_dedupF {α : Type} [DecidableEq α] {x : α} {l : List α} :
    x ∈ dedupF l ↔ x ∈ l := by
  induction l with
  | nil => simp [dedupF]
  | cons y rest ih =>
    simp only [dedupF, List.mem_cons, List.mem_filter, decide_eq_true_eq]
    constructor
    · rintro (rfl | ⟨h, _⟩)
      · exact Or.inl rfl
      · exact Or.inr (ih.1 h)
    · rintro (rfl | h)
      · exact Or.inl rfl
      · by_cases hxy : x = y
        · exact Or.inl hxy
        · exact Or.inr ⟨ih.2 h, hxy⟩

theorem mem_cacheUnion {p : Path} {c ps : List Path} :
    p ∈ cacheUnion c ps ↔ p ∈ c ∨ p ∈ ps := by
  simp only [cacheUnion, List.mem_append, List.mem_filter, decide_eq_true_eq]
  by_cases h : p ∈ c <;> simp [h]

theorem mem_rangeInt {d a b : Int} : d ∈ rangeInt a b ↔ a ≤ d ∧ d < b := by
  simp only [rangeInt, List.mem_map, List.mem_range]
  constructor
  · rintro ⟨i, hi, rfl⟩
    omega
  · intro h
    exact ⟨(d - a).toNat, by omega, by omega⟩

theorem alGet_mem {κ β : Type} [DecidableEq κ] {k : κ} {b : β} {al : List (κ × β)}
    (h : alGet k al = some b) : (k, b) ∈ al := by
  induction al with
  | nil => simp [alGet] at h
  | cons kv rest ih =>
    obtain ⟨k', v⟩ := kv
    simp only [alGet] at h
    split at h
    · simp_all
    · exact List.mem_cons_of_mem _ (ih h)

theorem alGet_eq_none_iff {κ β : Type} [DecidableEq κ] {k : κ} {al : List (κ × β)} :
    alGet k al = none ↔ k ∉ al.map Prod.fst := by
  induction al with
  | nil => simp [alGet]
  | cons kv rest ih =>
    obtain ⟨k', v⟩ := kv
    simp only [alGet, List.map_cons, List.mem_cons]
    split
    · simp_all
    · simpa [ih] using fun h => by simp_all

theorem alUpdate_keys {κ β : Type} [DecidableEq κ] {k : κ} {f : β → β}
    {al al' : List (κ × β)} (h : alUpdate k f al = some al') :
    al'.map Prod.fst = al.map Prod.fst := by
  induction al generalizing al' with
  | nil => simp [alUpdate] at h
  | cons kv rest ih =>
    obtain ⟨k', v⟩ := kv
    simp only [alUpdate] at h
    split at h
    · cases h; simp
    · cases hrec : alUpdate k f rest with
      | none => rw [hrec] at h; simp at h
      | some l' =>
        rw [hrec] at h
        cases h
        simp [ih hrec]

theorem alUpdate_isSome_iff {κ β : Type} [DecidableEq κ] {k : κ} {f : β → β}
    {al : List (κ × β)} : (alUpdate k f al).isSome ↔ k ∈ al.map Prod.fst := by
  induction al with
  | nil => simp [alUpdate]
  | cons kv rest ih =>
    obtain ⟨k', v⟩ := kv
    simp only [alUpdate, List.map_cons, List.mem_cons]
    split
    · simp_all
    · rename_i hne
      cases hrec : alUpdate k f rest with
      | none => simp [hrec] at ih ⊢; simp_all
      | some l' => simp [hrec] at ih ⊢; simp_all

theorem alGet_alUpdate_self {κ β : Type} [DecidableEq κ] {k : κ} {f : β → β}
    {al al' : List (κ × β)} (h : alUpdate k f al = some al') :
    alGet k al' = (alGet k al).map f := by
  induction al generalizing al' with
  | nil => simp [alUpdate] at h
  | cons kv rest ih =>
    obtain ⟨k', v⟩ := kv
    simp only [alUpdate] at h
    split at h
    · rename_i heq
      cases h
      simp [alGet, heq]
    · rename_i hne
      cases hrec : alUpdate k f rest with
      | none => rw [hrec] at h; simp at h
      | some l' =>
        rw [hrec] at h
        cases h
        simp [alGet, hne, ih hrec]

theorem alGet_alUpdate_ne {κ β : Type} [DecidableEq κ] {k k' : κ} {f : β → β}
    {al al' : List (κ × β)} (h : alUpdate k f al = some al') (hk : k' ≠ k) :
    alGet k' al' = alGet k' al := by
  induction al generalizing al' with
  | nil => simp [alUpdate] at h
  | cons kv rest ih =>
    obtain ⟨k'', v⟩ := kv
    simp only [alUpdate] at h
    split at h
    · rename_i heq
      cases h
      subst heq
      simp [alGet, hk]
    · cases hrec : alUpdate k f rest with
      | none => rw [hrec] at h; simp at h
      | some l' =>
        rw [hrec] at h
        cases h
        simp only [alGet]
        split
        · rfl
        · exact ih hrec

theorem alGetD_alUpdate_self {k : Int} {f : List LightEntry → List LightEntry}
    {al al' : List (Int × List LightEntry)} (h : alUpdate k f al = some al') :
    alGetD k al' = f (alGetD k al) := by
  have hs : (alUpdate k f al).isSome := by rw [h]; rfl
  rw [alUpdate_isSome_iff] at hs
  cases hg : alGet k al with
  | none => rw [alGet_eq_none_iff] at hg; exact absurd hs hg
  | some b => simp [alGetD, alGet_alUpdate_self h, hg]

theorem alGetDS_alUpdate_self {k : String} {f : List LightEntry → List LightEntry}
    {al al' : List (String × List LightEntry)} (h : alUpdate k f al = some al') :
    alGetD k al' = f (alGetD k al) := by
  have hs : (alUpdate k f al).isSome := by rw [h]; rfl
  rw [alUpdate_isSome_iff] at hs
  cases hg : alGet k al with
  | none => rw [alGet_eq_none_iff] at hg; exact absurd hs hg
  | some b => simp [alGetD, alGet_alUpdate_self h, hg]

theorem getNewPaths_nodup (fs : FS) (base : Path) (d : Int) (cache : List Path) :
    (getNewPaths fs base d cache).Nodup := by
  unfold getNewPaths
  split
  · split
    · exact (List.nodup_singleton _).filter _
    · exact List.nodup_nil.filter _
  · exact fs.nodup.filter _

theorem getNewPaths_not_cached {fs : FS} {base : Path} {d : Int} {cache : List Path}
    {p : Path} (h : p ∈ getNewPaths fs base d cache) : p ∉ cache := by
  unfold getNewPaths at h
  split at h
  · rw [List.mem_filter] at h
    exact of_decide_eq_true h.2
  · rw [List.mem_filter] at h
    have := h.2
    simp only [Bool.and_eq_true, decide_eq_true_eq] at this
    exact this.2

theorem loadEntry_ok_path {fs : FS} {p : Path} {ent : LightEntry}
    (h : loadEntry fs p = .ok ent) : ent.path = p := by
  unfold loadEntry at h
  split at h
  · cases h
  · cases h; rfl

theorem loadEntry_of_no_desc {fs : FS} {p : Path} (h : fs.desc p = none) :
    loadEntry fs p = .error (.fileNotFound p) := by
  unfold loadEntry
  rw [h]

/-! ### Lemmas about `Entry.add_entry` -/

theorem add_entry_fields (e : Entry) (ent : LightEntry) (d : Int) :
    (e.add_entry ent d).1.light = e.light ∧
    (e.add_entry ent d).1.path_cache = e.path_cache ∧
    (e.add_entry ent d).1.distances_searched = e.distances_searched ∧
    (e.add_entry ent d).1.levels_searched = e.levels_searched ∧
    (e.add_entry ent d).1.ancestors = e.ancestors := by
  unfold Entry.add_entry
  split
  · exact ⟨rfl, rfl, rfl, rfl, rfl⟩
  · split
    · exact ⟨rfl, rfl, rfl, rfl, rfl⟩
    · exact ⟨rfl, rfl, rfl, rfl, rfl⟩

theorem add_entry_keys (e : Entry) (ent : LightEntry) (d : Int) :
    (e.add_entry ent d).1.children_by_distance.map Prod.fst =
      e.children_by_distance.map Prod.fst ∧
    (e.add_entry ent d).1.children_by_level.map Prod.fst =
      e.children_by_level.map Prod.fst := by
  unfold Entry.add_entry
  split
  · exact ⟨rfl, rfl⟩
  · rename_i cbd hcbd
    split
    · exact ⟨alUpdate_keys hcbd, rfl⟩
    · rename_i cbl hcbl
      exact ⟨alUpdate_keys hcbd, alUpdate_keys hcbl⟩

theorem add_entry_ok_buckets {e : Entry} {ent : LightEntry} {d : Int} {e' : Entry}
    (h : e.add_entry ent d = (e', none)) :
    (∀ k : Int, alGetD k e'.children_by_distance =
       if k = d then alGetD k e.children_by_distance ++ [ent]
       else alGetD k e.children_by_distance) ∧
    (∀ l : String, alGetD l e'.children_by_level =
       if l = ent.level then alGetD l e.children_by_level ++ [ent]
       else alGetD l e.children_by_level) := by
  unfold Entry.add_entry at h
  split at h
  · cases h
  · rename_i cbd hcbd
    split at h
    · cases h
    · rename_i cbl hcbl
      cases h
      constructor
      · intro k
        split
        · rename_i hk
          subst hk
          exact alGetD_alUpdate_self hcbd
        · rename_i hk
          simp only [alGetD, alGet_alUpdate_ne hcbd hk]
      · intro l
        split
        · rename_i hl
          subst hl
          exact alGetDS_alUpdate_self hcbl
        · rename_i hl
          simp only [alGetD, alGet_alUpdate_ne hcbl hl]

/-! ### Lemmas about the `_fill_distance` batch and loop -/

theorem fdb_fields (fs : FS) (d : Int) : ∀ (ps : List Path) (e : Entry),
    (fill_dist_batch fs d e ps).1.light = e.light ∧
    (fill_dist_batch fs d e ps).1.path_cache = e.path_cache ∧
    (fill_dist_batch fs d e ps).1.distances_searched = e.distances_searched ∧
    (fill_dist_batch fs d e ps).1.levels_searched = e.levels_searched := by
  intro ps
  induction ps with
  | nil => intro e; exact ⟨rfl, rfl, rfl, rfl⟩
  | cons p rest ih =>
    intro e
    unfold fill_dist_batch
    split
    · exact ⟨rfl, rfl, rfl, rfl⟩
    · rename_i ent hl
      split
      · rename_i e1 er ha
        have hf := add_entry_fields e ent d
        rw [ha] at hf
        exact ⟨hf.1, hf.2.1, hf.2.2.1, hf.2.2.2.1⟩
      · rename_i e1 ha
        have hf := add_entry_fields e ent d
        rw [ha] at hf
        have hr := ih e1
        exact ⟨hr.1.trans hf.1, hr.2.1.trans hf.2.1, hr.2.2.1.trans hf.2.2.1,
               hr.2.2.2.trans hf.2.2.2.1⟩

theorem fdb_keys (fs : FS) (d : Int) : ∀ (ps : List Path) (e : Entry),
    (fill_dist_batch fs d e ps).1.children_by_distance.map Prod.fst =
      e.children_by_distance.map Prod.fst ∧
    (fill_dist_batch fs d e ps).1.children_by_level.map Prod.fst =
      e.children_by_level.map Prod.fst := by
  intro ps
  induction ps with
  | nil => intro e; exact ⟨rfl, rfl⟩
  | cons p rest ih =>
    intro e
    unfold fill_dist_batch
    split
    · exact ⟨rfl, rfl⟩
    · rename_i ent hl
      split
      · rename_i e1 er ha
        have hf := add_entry_keys e ent d
        rw [ha] at hf
        exact hf
      · rename_i e1 ha
        have hf := add_entry_keys e ent d
        rw [ha] at hf
        have hr := ih e1
        exact ⟨hr.1.trans hf.1, hr.2.trans hf.2⟩

theorem fdb_ok_buckets (fs : FS) (d : Int) : ∀ (ps : List Path) (e e' : Entry),
    fill_dist_batch fs d e ps = (e', none) →
    (∀ k : Int, k ≠ d → alGetD k e'.children_by_distance =
       alGetD k e.children_by_distance) ∧
    (∀ l : String, ∀ x ∈ alGetD l e'.children_by_level,
       x ∈ alGetD l e.children_by_level ∨ x.level = l) := by
  intro ps
  induction ps with
  | nil =>
    intro e e' h
    cases h
    exact ⟨fun _ _ => rfl, fun _ _ hx => Or.inl hx⟩
  | cons p rest ih =>
    intro e e' h
    unfold fill_dist_batch at h
    split at h
    · cases h
    · rename_i ent hl
      split at h
      · cases h
      · rename_i e1 ha
        have hb := add_entry_ok_buckets ha
        have hr := ih e1 e' h
        constructor
        · intro k hk
          rw [hr.1 k hk, hb.1 k, if_neg hk]
        · intro l x hx
          rcases hr.2 l x hx with hx1 | hx1
          · rw [hb.2 l] at hx1
            split at hx1
            · rename_i hlev
              rcases List.mem_append.1 hx1 with hx2 | hx2
              · exact Or.inl hx2
              · right
                rw [List.mem_singleton] at hx2
                subst hx2
                exact hlev.symm
            · exact Or.inl hx1
          · exact Or.inr hx1

theorem fdb_err_of_missing (fs : FS) (d : Int) : ∀ (ps : List Path) (e : Entry),
    (∃ p ∈ ps, fs.desc p = none) → (fill_dist_batch fs d e ps).2 ≠ none := by
  intro ps
  induction ps with
  | nil =>
    intro e h
    obtain ⟨p, hp, _⟩ := h
    cases hp
  | cons p rest ih =>
    intro e h
    unfold fill_dist_batch
    split
    · simp
    · rename_i ent hl
      split
      · simp
      · rename_i e1 ha
        apply ih
        obtain ⟨q, hq, hdq⟩ := h
        rcases List.mem_cons.1 hq with rfl | hq'
        · rw [loadEntry_of_no_desc hdq] at hl
          cases hl
        · exact ⟨q, hq', hdq⟩

theorem fdg_fields (fs : FS) : ∀ (todo : List Int) (e : Entry) (log : ScanLog),
    (fill_dist_go fs todo e log).1.light = e.light ∧
    (fill_dist_go fs todo e log).1.levels_searched = e.levels_searched := by
  intro todo
  induction todo with
  | nil => intro e log; exact ⟨rfl, rfl⟩
  | cons d rest ih =>
    intro e log
    simp only [fill_dist_go]
    split
    · rename_i e1 er hb
      have hf := fdb_fields fs d (getNewPaths fs e.light.path d e.path_cache)
        { e with distances_searched := sinsert d e.distances_searched }
      rw [hb] at hf
      exact ⟨hf.1, hf.2.2.2⟩
    · rename_i e1 hb
      have hf := fdb_fields fs d (getNewPaths fs e.light.path d e.path_cache)
        { e with distances_searched := sinsert d e.distances_searched }
      rw [hb] at hf
      have hr := ih
        { e1 with
          path_cache := cacheUnion e1.path_cache (getNewPaths fs e.light.path d e.path_cache) }
        (log ++ [(d, getNewPaths fs e.light.path d e.path_cache)])
      exact ⟨hr.1.trans hf.1, hr.2.trans hf.2.2.2⟩

theorem fdg_keys (fs : FS) : ∀ (todo : List Int) (e : Entry) (log : ScanLog),
    (fill_dist_go fs todo e log).1.children_by_distance.map Prod.fst =
      e.children_by_distance.map Prod.fst ∧
    (fill_dist_go fs todo e log).1.children_by_level.map Prod.fst =
      e.children_by_level.map Prod.fst := by
  intro todo
  induction todo with
  | nil => intro e log; exact ⟨rfl, rfl⟩
  | cons d rest ih =>
    intro e log
    simp only [fill_dist_go]
    split
    · rename_i e1 er hb
      have hf := fdb_keys fs d (getNewPaths fs e.light.path d e.path_cache)
        { e with distances_searched := sinsert d e.distances_searched }
      rw [hb] at hf
      exact hf
    · rename_i e1 hb
      have hf := fdb_keys fs d (getNewPaths fs e.light.path d e.path_cache)
        { e with distances_searched := sinsert d e.distances_searched }
      rw [hb] at hf
      have hr := ih
        { e1 with
          path_cache := cacheUnion e1.path_cache (getNewPaths fs e.light.path d e.path_cache) }
        (log ++ [(d, getNewPaths fs e.light.path d e.path_cache)])
      exact ⟨hr.1.trans hf.1, hr.2.trans hf.2⟩

theorem fdg_searched_mono (fs : FS) : ∀ (todo : List Int) (e : Entry) (log : ScanLog),
    ∀ x ∈ e.distances_searched, x ∈ (fill_dist_go fs todo e log).1.distances_searched := by
  intro todo
  induction todo with
  | nil => intro e log x hx; exact hx
  | cons d rest ih =>
    intro e log x hx
    simp only [fill_dist_go]
    split
    · rename_i e1 er hb
      have hf := fdb_fields fs d (getNewPaths fs e.light.path d e.path_cache)
        { e with distances_searched := sinsert d e.distances_searched }
      rw [hb] at hf
      rw [hf.2.2.1]
      exact mem_sinsert_of_mem d hx
    · rename_i e1 hb
      have hf := fdb_fields fs d (getNewPaths fs e.light.path d e.path_cache)
        { e with distances_searched := sinsert d e.distances_searched }
      rw [hb] at hf
      apply ih
      show x ∈ e1.distances_searched
      rw [hf.2.2.1]
      exact mem_sinsert_of_mem d hx

theorem fdg_todo_searched (fs : FS) : ∀ (todo : List Int) (e : Entry) (log : ScanLog)
    (e' : Entry) (log' : ScanLog),
    fill_dist_go fs todo e log = (e', log', none) →
    ∀ d ∈ todo, d ∈ e'.distances_searched := by
  intro todo
  induction todo with
  | nil => intro e log e' log' h d hd; cases hd
  | cons d0 rest ih =>
    intro e log e' log' h d hd
    simp only [fill_dist_go] at h
    split at h
    · cases h
    · rename_i e1 hb
      have hf := fdb_fields fs d0 (getNewPaths fs e.light.path d0 e.path_cache)
        { e with distances_searched := sinsert d0 e.distances_searched }
      rw [hb] at hf
      rcases List.mem_cons.1 hd with rfl | hd'
      · have := fdg_searched_mono fs rest
          { e1 with
            path_cache := cacheUnion e1.path_cache (getNewPaths fs e.light.path d e.path_cache) }
          (log ++ [(d, getNewPaths fs e.light.path d e.path_cache)]) d
          (by show d ∈ e1.distances_searched
              rw [hf.2.2.1]
              exact self_mem_sinsert d _)
        rw [h] at this
        exact this
      · exact ih _ _ _ _ h d hd'

theorem fdg_ok_log (fs : FS) : ∀ (todo : List Int) (e : Entry) (log : ScanLog)
    (e' : Entry) (log' : ScanLog),
    fill_dist_go fs todo e log = (e', log', none) →
    log'.map Prod.fst = log.map Prod.fst ++ todo := by
  intro todo
  induction todo with
  | nil =>
    intro e log e' log' h
    cases h
    simp
  | cons d rest ih =>
    intro e log e' log' h
    simp only [fill_dist_go] at h
    split at h
    · cases h
    · rename_i e1 hb
      have := ih _ _ _ _ h
      simpa using this

theorem fdg_ok_buckets (fs : FS) : ∀ (todo : List Int) (e : Entry) (log : ScanLog)
    (e' : Entry) (log' : ScanLog),
    fill_dist_go fs todo e log = (e', log', none) →
    (∀ k : Int, k ∉ todo → alGetD k e'.children_by_distance =
       alGetD k e.children_by_distance) ∧
    (∀ l : String, ∀ x ∈ alGetD l e'.children_by_level,
       x ∈ alGetD l e.children_by_level ∨ x.level = l) := by
  intro todo
  induction todo with
  | nil =>
    intro e log e' log' h
    cases h
    exact ⟨fun _ _ => rfl, fun _ _ hx => Or.inl hx⟩
  | cons d rest ih =>
    intro e log e' log' h
    simp only [fill_dist_go] at h
    split at h
    · cases h
    · rename_i e1 hb
      have hstep := fdb_ok_buckets fs d (getNewPaths fs e.light.path d e.path_cache)
        { e with distances_searched := sinsert d e.distances_searched } e1 hb
      have hrec := ih _ _ _ _ h
      constructor
      · intro k hk
        have hkd : k ≠ d := fun hkd => hk (hkd ▸ List.mem_cons_self d rest)
        have hkr : k ∉ rest := fun hkr => hk (List.mem_cons_of_mem d hkr)
        rw [hrec.1 k hkr]
        exact hstep.1 k hkd
      · intro l x hx
        rcases hrec.2 l x hx with hx1 | hx1
        · exact hstep.2 l x hx1
        · exact Or.inr hx1

/-- `_fill_distance` leaves the indexed node and the level bookkeeping alone. -/
theorem fill_distance_fields (fs : FS) (e : Entry) (ds : List Int) :
    (fill_distance fs e ds).1.light = e.light ∧
    (fill_distance fs e ds).1.levels_searched = e.levels_searched :=
  fdg_fields fs _ e []

theorem fill_distance_keys (fs : FS) (e : Entry) (ds : List Int) :
    (fill_distance fs e ds).1.children_by_distance.map Prod.fst =
      e.children_by_distance.map Prod.fst ∧
    (fill_distance fs e ds).1.children_by_level.map Prod.fst =
      e.children_by_level.map Prod.fst :=
  fdg_keys fs _ e []

/-- After a successful `_fill_distance`, every requested distance is in
`_distances_searched`. -/
theorem fill_distance_ok_searched {fs : FS} {e : Entry} {ds : List Int} {e' : Entry}
    {log : ScanLog} (h : fill_distance fs e ds = (e', log, none)) :
    ∀ d ∈ dedupF ds, d ∈ e'.distances_searched := by
  intro d hd
  by_cases hs : d ∈ e.distances_searched
  · have := fdg_searched_mono fs ((dedupF ds).filter (fun x => x ∉ e.distances_searched))
      e [] d hs
    rw [show fill_dist_go fs ((dedupF ds).filter (fun x => x ∉ e.distances_searched)) e []
          = (e', log, none) from h] at this
    exact this
  · exact fdg_todo_searched fs _ e [] e' log h d
      (List.mem_filter.2 ⟨hd, by simpa using hs⟩)

/-! ### Lemmas about the `_fill_level` phases -/

theorem flp1_fields : ∀ (ls : List String) (e : Entry) (m : Int),
    (fill_level_phase1 ls e m).1.light = e.light ∧
    (fill_level_phase1 ls e m).1.path_cache = e.path_cache ∧
    (fill_level_phase1 ls e m).1.children_by_distance = e.children_by_distance ∧
    (fill_level_phase1 ls e m).1.children_by_level = e.children_by_level ∧
    (fill_level_phase1 ls e m).1.distances_searched = e.distances_searched := by
  intro ls
  induction ls with
  | nil => intro e m; exact ⟨rfl, rfl, rfl, rfl, rfl⟩
  | cons l rest ih =>
    intro e m
    simp only [fill_level_phase1]
    split
    · exact ⟨rfl, rfl, rfl, rfl, rfl⟩
    · split
      · exact ⟨rfl, rfl, rfl, rfl, rfl⟩
      · exact ih { e with levels_searched := sinsert l e.levels_searched } _

theorem flp1_searched_mono : ∀ (ls : List String) (e : Entry) (m : Int),
    ∀ x ∈ e.levels_searched, x ∈ (fill_level_phase1 ls e m).1.levels_searched := by
  intro ls
  induction ls with
  | nil => intro e m x hx; exact hx
  | cons l rest ih =>
    intro e m x hx
    simp only [fill_level_phase1]
    split
    · exact mem_sinsert_of_mem l hx
    · split
      · exact mem_sinsert_of_mem l hx
      · exact ih { e with levels_searched := sinsert l e.levels_searched } _ x
          (mem_sinsert_of_mem l hx)

theorem flp1_ok_searched : ∀ (ls : List String) (e : Entry) (m : Int) (e1 : Entry) (m1 : Int),
    fill_level_phase1 ls e m = (e1, m1, none) →
    ∀ l ∈ ls, l ∈ e1.levels_searched := by
  intro ls
  induction ls with
  | nil => intro e m e1 m1 h l hl; cases hl
  | cons l0 rest ih =>
    intro e m e1 m1 h l hl
    simp only [fill_level_phase1] at h
    split at h
    · cases h
    · rename_i ol hol
      split at h
      · cases h
      · rename_i os hos
        rcases List.mem_cons.1 hl with rfl | hl'
        · have := flp1_searched_mono rest
            { e with levels_searched := sinsert l e.levels_searched } (max (ol - os) m) l
            (self_mem_sinsert l _)
          rw [h] at this
          exact this
        · exact ih _ _ _ _ h l hl'

theorem flp1_ok_max : ∀ (ls : List String) (e : Entry) (m : Int) (e1 : Entry) (m1 : Int),
    fill_level_phase1 ls e m = (e1, m1, none) →
    ∀ d : Int, d ≤ m1 ↔ d ≤ m ∨ ∃ l ∈ ls, ∃ ol os : Int,
      levelOrder l = some ol ∧ levelOrder e.light.level = some os ∧ d ≤ ol - os := by
  intro ls
  induction ls with
  | nil =>
    intro e m e1 m1 h d
    cases h
    simp
  | cons l0 rest ih =>
    intro e m e1 m1 h d
    simp only [fill_level_phase1] at h
    split at h
    · cases h
    · rename_i ol hol
      split at h
      · cases h
      · rename_i os hos
        rw [ih _ _ _ _ h d]
        constructor
        · rintro (hd | ⟨l, hl, ol', os', hol', hos', hd⟩)
          · rcases le_max_iff.1 hd with hd' | hd'
            · exact Or.inr ⟨l0, List.mem_cons_self l0 rest, ol, os, hol, hos, hd'⟩
            · exact Or.inl hd'
          · exact Or.inr ⟨l, List.mem_cons_of_mem l0 hl, ol', os', hol', hos', hd⟩
        · rintro (hd | ⟨l, hl, ol', os', hol', hos', hd⟩)
          · exact Or.inl (le_max_iff.2 (Or.inr hd))
          · rcases List.mem_cons.1 hl with rfl | hl'
            · rw [hol'] at hol
              rw [hos'] at hos
              cases hol
              cases hos
              exact Or.inl (le_max_iff.2 (Or.inl hd))
            · exact Or.inr ⟨l, hl', ol', os', hol', hos', hd⟩

theorem flb_fields (fs : FS) (lvls : List String) (d : Int) :
    ∀ (ps : List Path) (e : Entry),
    (fill_level_batch fs lvls d e ps).1.light = e.light ∧
    (fill_level_batch fs lvls d e ps).1.distances_searched = e.distances_searched ∧
    (fill_level_batch fs lvls d e ps).1.levels_searched = e.levels_searched ∧
    ∀ x ∈ e.path_cache, x ∈ (fill_level_batch fs lvls d e ps).1.path_cache := by
  intro ps
  induction ps with
  | nil => intro e; exact ⟨rfl, rfl, rfl, fun x hx => hx⟩
  | cons p rest ih =>
    intro e
    unfold fill_level_batch
    split
    · exact ⟨rfl, rfl, rfl, fun x hx => hx⟩
    · rename_i ent hl
      split
      · rename_i hmem
        split
        · rename_i e1 er ha
          have hf := add_entry_fields e ent d
          rw [ha] at hf
          exact ⟨hf.1, hf.2.2.1, hf.2.2.2.1, fun x hx => hf.2.1 ▸ hx⟩
        · rename_i e1 ha
          have hf := add_entry_fields e ent d
          rw [ha] at hf
          have hr := ih { e1 with path_cache := sinsert ent.path e1.path_cache }
          refine ⟨hr.1.trans hf.1, hr.2.1.trans hf.2.2.1, hr.2.2.1.trans hf.2.2.2.1, ?_⟩
          intro x hx
          apply hr.2.2.2
          show x ∈ sinsert ent.path e1.path_cache
          apply mem_sinsert_of_mem
          rw [hf.2.1]
          exact hx
      · exact ih e

theorem flb_keys (fs : FS) (lvls : List String) (d : Int) :
    ∀ (ps : List Path) (e : Entry),
    (fill_level_batch fs lvls d e ps).1.children_by_distance.map Prod.fst =
      e.children_by_distance.map Prod.fst ∧
    (fill_level_batch fs lvls d e ps).1.children_by_level.map Prod.fst =
      e.children_by_level.map Prod.fst := by
  intro ps
  induction ps with
  | nil => intro e; exact ⟨rfl, rfl⟩
  | cons p rest ih =>
    intro e
    unfold fill_level_batch
    split
    · exact ⟨rfl, rfl⟩
    · rename_i ent hl
      split
      · split
        · rename_i e1 er ha
          have hf := add_entry_keys e ent d
          rw [ha] at hf
          exact hf
        · rename_i e1 ha
          have hf := add_entry_keys e ent d
          rw [ha] at hf
          have hr := ih { e1 with path_cache := sinsert ent.path e1.path_cache }
          exact ⟨hr.1.trans hf.1, hr.2.trans hf.2⟩
      · exact ih e

theorem flb_ok_buckets (fs : FS) (lvls : List String) (d : Int) :
    ∀ (ps : List Path) (e e' : Entry),
    fill_level_batch fs lvls d e ps = (e', none) →
    (∀ k : Int, k ≠ d → alGetD k e'.children_by_distance =
       alGetD k e.children_by_distance) ∧
    (∀ l : String, ∀ x ∈ alGetD l e'.children_by_level,
       x ∈ alGetD l e.children_by_level ∨ (x.level = l ∧ l ∈ lvls)) := by
  intro ps
  induction ps with
  | nil =>
    intro e e' h
    cases h
    exact ⟨fun _ _ => rfl, fun _ _ hx => Or.inl hx⟩
  | cons p rest ih =>
    intro e e' h
    unfold fill_level_batch at h
    split at h
    · cases h
    · rename_i ent hl
      split at h
      · rename_i hmem
        split at h
        · cases h
        · rename_i e1 ha
          have hb := add_entry_ok_buckets ha
          have hr := ih { e1 with path_cache := sinsert ent.path e1.path_cache } e' h
          constructor
          · intro k hk
            have h1 : alGetD k e1.children_by_distance = alGetD k e.children_by_distance := by
              rw [hb.1 k, if_neg hk]
            exact (hr.1 k hk).trans h1
          · intro l x hx
            rcases hr.2 l x hx with hx1 | hx1
            · have h2 : alGetD l e1.children_by_level =
                  if l = ent.level then alGetD l e.children_by_level ++ [ent]
                  else alGetD l e.children_by_level := hb.2 l
              rw [h2] at hx1
              split at hx1
              · rename_i hlev
                rcases List.mem_append.1 hx1 with hx2 | hx2
                · exact Or.inl hx2
                · right
                  rw [List.mem_singleton] at hx2
                  subst hx2
                  exact ⟨hlev.symm, hlev ▸ hmem⟩
              · exact Or.inl hx1
            · exact Or.inr hx1
      · exact ih e e' h

theorem flg_fields (fs : FS) (lvls : List String) :
    ∀ (todo : List Int) (e : Entry) (log : ScanLog),
    (fill_level_go fs lvls todo e log).1.light = e.light ∧
    (fill_level_go fs lvls todo e log).1.distances_searched = e.distances_searched ∧
    (fill_level_go fs lvls todo e log).1.levels_searched = e.levels_searched := by
  intro todo
  induction todo with
  | nil => intro e log; exact ⟨rfl, rfl, rfl⟩
  | cons d rest ih =>
    intro e log
    simp only [fill_level_go]
    split
    · rename_i e1 er hb
      have hf := flb_fields fs lvls d (getNewPaths fs e.light.path d e.path_cache) e
      rw [hb] at hf
      exact ⟨hf.1, hf.2.1, hf.2.2.1⟩
    · rename_i e1 hb
      have hf := flb_fields fs lvls d (getNewPaths fs e.light.path d e.path_cache) e
      rw [hb] at hf
      have hr := ih e1 (log ++ [(d, getNewPaths fs e.light.path d e.path_cache)])
      exact ⟨hr.1.trans hf.1, hr.2.1.trans hf.2.1, hr.2.2.trans hf.2.2.1⟩

theorem flg_keys (fs : FS) (lvls : List String) :
    ∀ (todo : List Int) (e : Entry) (log : ScanLog),
    (fill_level_go fs lvls todo e log).1.children_by_distance.map Prod.fst =
      e.children_by_distance.map Prod.fst ∧
    (fill_level_go fs lvls todo e log).1.children_by_level.map Prod.fst =
      e.children_by_level.map Prod.fst := by
  intro todo
  induction todo with
  | nil => intro e log; exact ⟨rfl, rfl⟩
  | cons d rest ih =>
    intro e log
    simp only [fill_level_go]
    split
    · rename_i e1 er hb
      have hf := flb_keys fs lvls d (getNewPaths fs e.light.path d e.path_cache) e
      rw [hb] at hf
      exact hf
    · rename_i e1 hb
      have hf := flb_keys fs lvls d (getNewPaths fs e.light.path d e.path_cache) e
      rw [hb] at hf
      have hr := ih e1 (log ++ [(d, getNewPaths fs e.light.path d e.path_cache)])
      exact ⟨hr.1.trans hf.1, hr.2.trans hf.2⟩

theorem flg_ok_log (fs : FS) (lvls : List String) :
    ∀ (todo : List Int) (e : Entry) (log : ScanLog) (e' : Entry) (log' : ScanLog),
    fill_level_go fs lvls todo e log = (e', log', none) →
    log'.map Prod.fst = log.map Prod.fst ++ todo := by
  intro todo
  induction todo with
  | nil =>
    intro e log e' log' h
    cases h
    simp
  | cons d rest ih =>
    intro e log e' log' h
    simp only [fill_level_go] at h
    split at h
    · cases h
    · rename_i e1 hb
      have := ih _ _ _ _ h
      simpa using this

theorem flg_ok_buckets (fs : FS) (lvls : List String) :
    ∀ (todo : List Int) (e : Entry) (log : ScanLog) (e' : Entry) (log' : ScanLog),
    fill_level_go fs lvls todo e log = (e', log', none) →
    (∀ k : Int, k ∉ todo → alGetD k e'.children_by_distance =
       alGetD k e.children_by_distance) ∧
    (∀ l : String, ∀ x ∈ alGetD l e'.children_by_level,
       x ∈ alGetD l e.children_by_level ∨ (x.level = l ∧ l ∈ lvls)) := by
  intro todo
  induction todo with
  | nil =>
    intro e log e' log' h
    cases h
    exact ⟨fun _ _ => rfl, fun _ _ hx => Or.inl hx⟩
  | cons d rest ih =>
    intro e log e' log' h
    simp only [fill_level_go] at h
    split at h
    · cases h
    · rename_i e1 hb
      have hstep := flb_ok_buckets fs lvls d (getNewPaths fs e.light.path d e.path_cache)
        e e1 hb
      have hrec := ih _ _ _ _ h
      constructor
      · intro k hk
        have hkd : k ≠ d := fun hkd => hk (hkd ▸ List.mem_cons_self d rest)
        have hkr : k ∉ rest := fun hkr => hk (List.mem_cons_of_mem d hkr)
        rw [hrec.1 k hkr]
        exact hstep.1 k hkd
      · intro l x hx
        rcases hrec.2 l x hx with hx1 | hx1
        · exact hstep.2 l x hx1
        · exact Or.inr hx1

/-- `_fill_level` leaves the indexed node and the distance bookkeeping alone. -/
theorem fill_level_fields (fs : FS) (e : Entry) (ls : List String) :
    (fill_level fs e ls).1.light = e.light ∧
    (fill_level fs e ls).1.distances_searched = e.distances_searched := by
  unfold fill_level
  split
  · rename_i e1 er h
    have hf := flp1_fields ((dedupF ls).filter (fun l => l ∉ e.levels_searched)) e 0
    rw [h] at hf
    exact ⟨hf.1, hf.2.2.2.2⟩
  · rename_i e1 m h
    have hf := flp1_fields ((dedupF ls).filter (fun l => l ∉ e.levels_searched)) e 0
    rw [h] at hf
    have hg := flg_fields fs (dedupF ls)
      ((rangeInt 1 (m + 1)).filter (fun d => d ∉ e1.distances_searched)) e1 []
    exact ⟨hg.1.trans hf.1, hg.2.1.trans hf.2.2.2.2⟩

theorem fill_level_keys (fs : FS) (e : Entry) (ls : List String) :
    (fill_level fs e ls).1.children_by_distance.map Prod.fst =
      e.children_by_distance.map Prod.fst ∧
    (fill_level fs e ls).1.children_by_level.map Prod.fst =
      e.children_by_level.map Prod.fst := by
  unfold fill_level
  split
  · rename_i e1 er h
    have hf := flp1_fields ((dedupF ls).filter (fun l => l ∉ e.levels_searched)) e 0
    rw [h] at hf
    rw [hf.2.2.1, hf.2.2.2.1]
    exact ⟨rfl, rfl⟩
  · rename_i e1 m h
    have hf := flp1_fields ((dedupF ls).filter (fun l => l ∉ e.levels_searched)) e 0
    rw [h] at hf
    have hg := flg_keys fs (dedupF ls)
      ((rangeInt 1 (m + 1)).filter (fun d => d ∉ e1.distances_searched)) e1 []
    rw [hg.1, hg.2, hf.2.2.1, hf.2.2.2.1]
    exact ⟨rfl, rfl⟩

/-- After a successful `_fill_level`, every requested level is recorded in
`_levels_searched`. -/
theorem fill_level_ok_searched {fs : FS} {e : Entry} {ls : List String} {e' : Entry}
    {log : ScanLog} (h : fill_level fs e ls = (e', log, none)) :
    ∀ l ∈ dedupF ls, l ∈ e'.levels_searched := by
  unfold fill_level at h
  split at h
  · cases h
  · rename_i e1 m hp
    intro l hl
    have hpres := flg_fields fs (dedupF ls)
      ((rangeInt 1 (m + 1)).filter (fun d => d ∉ e1.distances_searched)) e1 []
    rw [h] at hpres
    rw [hpres.2.2]
    by_cases hs : l ∈ e.levels_searched
    · have := flp1_searched_mono ((dedupF ls).filter (fun x => x ∉ e.levels_searched)) e 0 l hs
      rw [hp] at this
      exact this
    · exact flp1_ok_searched _ _ _ _ _ hp l (List.mem_filter.2 ⟨hl, by simpa using hs⟩)

/-! ### Preservation of the bucket/cache invariant -/

theorem alGetD_distance_dict (k : Int) : alGetD k distance_dict = [] := by
  unfold alGetD
  cases hg : alGet k distance_dict with
  | none => rfl
  | some b =>
    have := alGet_mem hg
    unfold distance_dict at this
    rw [List.mem_map] at this
    obtain ⟨n, _, hn⟩ := this
    cases hn
    rfl

theorem alGetD_level_dict (l : String) : alGetD l level_dict = [] := by
  unfold alGetD
  cases hg : alGet l level_dict with
  | none => rfl
  | some b =>
    have := alGet_mem hg
    unfold level_dict at this
    rw [List.mem_map] at this
    obtain ⟨t, _, ht⟩ := this
    cases ht
    rfl

theorem bucketsOKrel_mono {e : Entry} {C C' : List Path} (h : bucketsOKrel e C)
    (hsub : ∀ p ∈ C, p ∈ C') : bucketsOKrel e C' :=
  ⟨fun d => ⟨(h.1 d).1, fun x hx => hsub _ ((h.1 d).2 x hx)⟩,
   fun l => ⟨(h.2 l).1, fun x hx => hsub _ ((h.2 l).2 x hx)⟩⟩

theorem bucketsOKrel_add_entry {e e' : Entry} {ent : LightEntry} {d : Int} {C : List Path}
    (hOK : bucketsOKrel e C) (hp : ent.path ∉ C) (h : e.add_entry ent d = (e', none)) :
    bucketsOKrel e' (C ++ [ent.path]) := by
  have hb := add_entry_ok_buckets h
  constructor
  · intro k
    rw [hb.1 k]
    split
    · constructor
      · rw [List.map_append]
        rw [List.nodup_append]
        refine ⟨(hOK.1 k).1, List.nodup_singleton _, ?_⟩
        intro q hq hq'
        rw [List.map_singleton, List.mem_singleton] at hq'
        subst hq'
        rw [List.mem_map] at hq
        obtain ⟨x, hx, hxp⟩ := hq
        exact hp (hxp ▸ (hOK.1 k).2 x hx)
      · intro x hx
        rcases List.mem_append.1 hx with hx' | hx'
        · exact List.mem_append_left _ ((hOK.1 k).2 x hx')
        · rw [List.mem_singleton] at hx'
          subst hx'
          exact List.mem_append_right _ (List.mem_singleton_self _)
    · exact ⟨(hOK.1 k).1, fun x hx => List.mem_append_left _ ((hOK.1 k).2 x hx)⟩
  · intro l
    rw [hb.2 l]
    split
    · constructor
      · rw [List.map_append]
        rw [List.nodup_append]
        refine ⟨(hOK.2 l).1, List.nodup_singleton _, ?_⟩
        intro q hq hq'
        rw [List.map_singleton, List.mem_singleton] at hq'
        subst hq'
        rw [List.mem_map] at hq
        obtain ⟨x, hx, hxp⟩ := hq
        exact hp (hxp ▸ (hOK.2 l).2 x hx)
      · intro x hx
        rcases List.mem_append.1 hx with hx' | hx'
        · exact List.mem_append_left _ ((hOK.2 l).2 x hx')
        · rw [List.mem_singleton] at hx'
          subst hx'
          exact List.mem_append_right _ (List.mem_singleton_self _)
    · exact ⟨(hOK.2 l).1, fun x hx => List.mem_append_left _ ((hOK.2 l).2 x hx)⟩

theorem fdb_ok_bucketsOK (fs : FS) (d : Int) : ∀ (ps : List Path) (C : List Path) (e e' : Entry),
    bucketsOKrel e C → ps.Nodup → (∀ p ∈ ps, p ∉ C) →
    fill_dist_batch fs d e ps = (e', none) →
    bucketsOKrel e' (C ++ ps) := by
  intro ps
  induction ps with
  | nil =>
    intro C e e' hOK _ _ h
    cases h
    simpa using hOK
  | cons p rest ih =>
    intro C e e' hOK hnd hfresh h
    unfold fill_dist_batch at h
    split at h
    · cases h
    · rename_i ent hl
      split at h
      · cases h
      · rename_i e1 ha
        have hep : ent.path = p := loadEntry_ok_path hl
        have h1 : bucketsOKrel e1 (C ++ [p]) := by
          have := bucketsOKrel_add_entry hOK
            (by rw [hep]; exact hfresh p (List.mem_cons_self p rest)) ha
          rwa [hep] at this
        have h2 := ih (C ++ [p]) e1 e' h1 hnd.of_cons
          (by
            intro q hq
            rw [List.mem_append, List.mem_singleton]
            rintro (hq' | rfl)
            · exact hfresh q (List.mem_cons_of_mem p hq) hq'
            · exact (List.nodup_cons.1 hnd).1 hq) h
        have : C ++ [p] ++ rest = C ++ p :: rest := by simp
        rwa [this] at h2

theorem fdg_ok_bucketsOK (fs : FS) : ∀ (todo : List Int) (e : Entry) (log : ScanLog)
    (e' : Entry) (log' : ScanLog),
    bucketsOK e → fill_dist_go fs todo e log = (e', log', none) → bucketsOK e' := by
  intro todo
  induction todo with
  | nil =>
    intro e log e' log' hOK h
    cases h
    exact hOK
  | cons d rest ih =>
    intro e log e' log' hOK h
    simp only [fill_dist_go] at h
    split at h
    · cases h
    · rename_i e1 hb
      have hps := getNewPaths_nodup fs e.light.path d e.path_cache
      have hfr : ∀ p ∈ getNewPaths fs e.light.path d e.path_cache, p ∉ e.path_cache :=
        fun p hp => getNewPaths_not_cached hp
      have h1 : bucketsOKrel e1
          (e.path_cache ++ getNewPaths fs e.light.path d e.path_cache) :=
        fdb_ok_bucketsOK fs d _ e.path_cache
          { e with distances_searched := sinsert d e.distances_searched } e1 hOK hps hfr hb
      have hcache := (fdb_fields fs d (getNewPaths fs e.light.path d e.path_cache)
        { e with distances_searched := sinsert d e.distances_searched })
      rw [hb] at hcache
      apply ih _ _ _ _ _ h
      show bucketsOKrel _ _
      have h2 : bucketsOKrel e1
          (cacheUnion e1.path_cache (getNewPaths fs e.light.path d e.path_cache)) := by
        apply bucketsOKrel_mono h1
        intro p hp
        rw [mem_cacheUnion]
        rcases List.mem_append.1 hp with hp' | hp'
        · left
          rw [hcache.2.1]
          exact hp'
        · right
          exact hp'
      exact ⟨fun k => (h2.1 k), fun l => (h2.2 l)⟩

theorem flb_ok_bucketsOK (fs : FS) (lvls : List String) (d : Int) :
    ∀ (ps : List Path) (e e' : Entry),
    bucketsOK e → ps.Nodup → (∀ p ∈ ps, p ∉ e.path_cache) →
    fill_level_batch fs lvls d e ps = (e', none) →
    bucketsOK e' := by
  intro ps
  induction ps with
  | nil =>
    intro e e' hOK _ _ h
    cases h
    exact hOK
  | cons p rest ih =>
    intro e e' hOK hnd hfresh h
    unfold fill_level_batch at h
    split at h
    · cases h
    · rename_i ent hl
      have hep : ent.path = p := loadEntry_ok_path hl
      split at h
      · split at h
        · cases h
        · rename_i e1 ha
          have h1 : bucketsOKrel e1 (e.path_cache ++ [p]) := by
            have := bucketsOKrel_add_entry hOK
              (by rw [hep]; exact hfresh p (List.mem_cons_self p rest)) ha
            rwa [hep] at this
          have hcache := add_entry_fields e ent d
          rw [ha] at hcache
          apply ih { e1 with path_cache := sinsert ent.path e1.path_cache } e' _
            hnd.of_cons _ h
          · show bucketsOKrel _ (sinsert ent.path e1.path_cache)
            apply bucketsOKrel_mono h1
            intro q hq
            rw [hep, hcache.2.1]
            rcases List.mem_append.1 hq with hq' | hq'
            · exact mem_sinsert_of_mem p hq'
            · rw [List.mem_singleton] at hq'
              rw [hq']
              exact self_mem_sinsert p _
          · intro q hq
            show q ∉ sinsert ent.path e1.path_cache
            rw [hep, hcache.2.1, mem_sinsert]
            rintro (rfl | hq')
            · exact (List.nodup_cons.1 hnd).1 hq
            · exact hfresh q (List.mem_cons_of_mem p hq) hq'
      · exact ih e e' hOK hnd.of_cons
          (fun q hq => hfresh q (List.mem_cons_of_mem p hq)) h

theorem flg_ok_bucketsOK (fs : FS) (lvls : List String) :
    ∀ (todo : List Int) (e : Entry) (log : ScanLog) (e' : Entry) (log' : ScanLog),
    bucketsOK e → fill_level_go fs lvls todo e log = (e', log', none) → bucketsOK e' := by
  intro todo
  induction todo with
  | nil =>
    intro e log e' log' hOK h
    cases h
    exact hOK
  | cons d rest ih =>
    intro e log e' log' hOK h
    simp only [fill_level_go] at h
    split at h
    · cases h
    · rename_i e1 hb
      have hps := getNewPaths_nodup fs e.light.path d e.path_cache
      have hfr : ∀ p ∈ getNewPaths fs e.light.path d e.path_cache, p ∉ e.path_cache :=
        fun p hp => getNewPaths_not_cached hp
      exact ih _ _ _ _ (flb_ok_bucketsOK fs lvls d _ e e1 hOK hps hfr hb) h

/-- Successful `_fill_distance` preserves the bucket/cache invariant. -/
theorem fill_distance_ok_bucketsOK {fs : FS} {e : Entry} {ds : List Int} {e' : Entry}
    {log : ScanLog} (hOK : bucketsOK e) (h : fill_distance fs e ds = (e', log, none)) :
    bucketsOK e' :=
  fdg_ok_bucketsOK fs _ e [] e' log hOK h

/-- Successful `_fill_level` preserves the bucket/cache invariant. -/
theorem fill_level_ok_bucketsOK {fs : FS} {e : Entry} {ls : List String} {e' : Entry}
    {log : ScanLog} (hOK : bucketsOK e) (h : fill_level fs e ls = (e', log, none)) :
    bucketsOK e' := by
  unfold fill_level at h
  split at h
  · cases h
  · rename_i e1 m hp
    have hf := flp1_fields ((dedupF ls).filter (fun l => l ∉ e.levels_searched)) e 0
    rw [hp] at hf
    have h1 : bucketsOK e1 := by
      show bucketsOKrel e1 e1.path_cache
      rw [hf.2.1]
      exact ⟨fun d => by rw [show e1.children_by_distance = e.children_by_distance from hf.2.2.1]
                         exact hOK.1 d,
             fun l => by rw [show e1.children_by_level = e.children_by_level from hf.2.2.2.1]
                         exact hOK.2 l⟩
    exact flg_ok_bucketsOK fs _ _ e1 [] e' log h1 h

/-- The empty index created at the top of `Entry.__init__` satisfies the
bucket/cache invariant. -/
theorem bucketsOK_fresh (light : LightEntry) :
    bucketsOK { light := light, path_cache := [], children_by_distance := distance_dict,
                children_by_level := level_dict, children_by_name := [],
                levels_searched := [], distances_searched := [], ancestors := [] } := by
  constructor
  · intro d
    refine ⟨?_, ?_⟩
    · show ((alGetD d distance_dict).map LightEntry.path).Nodup
      rw [alGetD_distance_dict]
      exact List.nodup_nil
    · show ∀ x ∈ alGetD d distance_dict, x.path ∈ ([] : List Path)
      rw [alGetD_distance_dict]
      exact fun x hx => absurd hx (List.not_mem_nil x)
  · intro l
    refine ⟨?_, ?_⟩
    · show ((alGetD l level_dict).map LightEntry.path).Nodup
      rw [alGetD_level_dict]
      exact List.nodup_nil
    · show ∀ x ∈ alGetD l level_dict, x.path ∈ ([] : List Path)
      rw [alGetD_level_dict]
      exact fun x hx => absurd hx (List.not_mem_nil x)

/-- A freshly constructed index satisfies the bucket/cache invariant. -/
theorem init_bucketsOK {fs : FS} {p : Path} {e : Entry} (h : Entry.init fs p = .ok e) :
    bucketsOK e := by
  unfold Entry.init at h
  split at h
  · cases h
  · rename_i light hl
    split at h
    · cases h
    · rename_i e1 log hfd
      cases h
      have h1 : bucketsOK e1 := fill_distance_ok_bucketsOK (bucketsOK_fresh light) hfd
      exact ⟨fun d => h1.1 d, fun l => h1.2 l⟩

/-- Every reachable index state satisfies the bucket/cache invariant. -/
theorem reached_bucketsOK {fs : FS} {e : Entry} (h : Reached fs e) : bucketsOK e := by
  induction h with
  | init p e hinit => exact init_bucketsOK hinit
  | dist e ds e' log _ hfd ih => exact fill_distance_ok_bucketsOK ih hfd
  | level e ls e' log _ hfl ih => exact fill_level_ok_bucketsOK ih hfl

/-! ### Lemmas about the query pipeline -/

theorem mem_distance_dict_keys {d : Int} :
    d ∈ distance_dict.map Prod.fst ↔ 0 ≤ d ∧ d < 21 := by
  unfold distance_dict
  rw [List.map_map]
  simp only [List.mem_map, Function.comp, List.mem_range]
  have hlen : LEVELS.length = 21 := rfl
  rw [hlen]
  constructor
  · rintro ⟨n, hn, rfl⟩
    omega
  · intro h
    exact ⟨d.toNat, by omega, by omega⟩

theorem readBuckets_err_of_missing {κ : Type} [DecidableEq κ] (toErr : κ → Err)
    (al : List (κ × List LightEntry)) :
    ∀ (ks : List κ) (acc : List LightEntry) (k : κ),
    k ∈ ks → alGet k al = none →
    ∃ er : Err, readBuckets toErr al ks acc = .error er := by
  intro ks
  induction ks with
  | nil => intro acc k hk _; cases hk
  | cons k0 rest ih =>
    intro acc k hk hnone
    unfold readBuckets
    cases hg : alGet k0 al with
    | none => exact ⟨toErr k0, rfl⟩
    | some b =>
      rcases List.mem_cons.1 hk with rfl | hk'
      · rw [hg] at hnone
        cases hnone
      · exact ih _ k hk' hnone

theorem run_query_core_ok_light {fs : FS} {e : Entry} {ds : List Int} {ls ns : List String}
    {e' : Entry} {ms : List LightEntry}
    (h : run_query_core fs e ds ls ns = .ok (e', ms)) : e'.light = e.light := by
  unfold run_query_core at h
  split at h
  · cases h
  · rename_i e1 log1 hfd
    split at h
    · cases h
    · rename_i e2 log2 hfl
      split at h
      · cases h
      · split at h
        · cases h
        · cases h
          have h1 := fill_distance_fields fs e ds
          rw [hfd] at h1
          have h2 := fill_level_fields fs e1 ls
          rw [hfl] at h2
          exact h2.1.trans h1.1

theorem run_query_ok_light {fs : FS} {e : Entry} {ds : List Int} {ls ns : List String}
    {e' : Entry} {ms : List LightEntry}
    (h : Entry.run_query fs e ds ls ns = .ok (e', ms)) : e'.light = e.light :=
  run_query_core_ok_light h

/-! ### The claims -/

/-- C10: for every sequence of fill operations on one Tree Index, each
directory path is materialized into at most one stored node: no distance
bucket and no rank bucket contains two nodes backed by the same path, every
stored node's path is in the `seenPaths` dedup set, and an enumeration from
any reachable state never returns a path already in the dedup set (so a
cached node is never enumerated or inserted again by a later fill). -/
theorem c10_dedup_invariant (fs : FS) (e : Entry) (h : Reached fs e) :
    (∀ d : Int, ((alGetD d e.children_by_distance).map LightEntry.path).Nodup) ∧
    (∀ l : String, ((alGetD l e.children_by_level).map LightEntry.path).Nodup) ∧
    (∀ d : Int, ∀ x ∈ alGetD d e.children_by_distance, x.path ∈ e.path_cache) ∧
    (∀ l : String, ∀ x ∈ alGetD l e.children_by_level, x.path ∈ e.path_cache) ∧
    (∀ d : Int, ∀ p ∈ getNewPaths fs e.light.path d e.path_cache, p ∉ e.path_cache) := by
  have hOK := reached_bucketsOK h
  exact ⟨fun d => (hOK.1 d).1, fun l => (hOK.2 l).1, fun d => (hOK.1 d).2,
         fun l => (hOK.2 l).2, fun _ _ hp => getNewPaths_not_cached hp⟩

/-- C10 witness: the invariant instantiated on the index freshly built at the
root of the concrete test tree. -/
theorem c10_witness :
    ((alGetD 1 eA.children_by_distance).map LightEntry.path).Nodup ∧
    pEuk ∈ eA.path_cache :=
  ⟨(c10_dedup_invariant fsA eA (Reached.init pLife eA (by decide))).1 1,
   (c10_dedup_invariant fsA eA (Reached.init pLife eA (by decide))).2.2.1 1
     ⟨pEuk, "domain", none, none⟩ (by decide)⟩

/-- C2 counterexample: the index freshly built at the root — on which no rank
request was ever made (`_levels_searched` is empty) — already has a non-empty
rank bucket for `domain`, populated by the constructor's pure distance-1
scan. -/
theorem c2_counterexample :
    Entry.init fsA pLife = .ok eA ∧
    eA.levels_searched = [] ∧
    alGetD "domain" eA.children_by_level = [⟨pEuk, "domain", none, none⟩] := by
  decide

/-- C2 as amended: rank buckets are populated by both kinds of scan. A
distance scan inserts every node it discovers into the bucket of that node's
own rank, whether or not the rank was ever requested; a rank scan inserts
exactly the discovered nodes whose rank is among the requested ranks. In both
cases a node can only ever appear in the bucket keyed by its own rank. -/
theorem c2_amended (fs : FS) (e : Entry) (ds : List Int) (ls : List String)
    (e₁ e₂ : Entry) (log₁ log₂ : ScanLog)
    (h₁ : fill_distance fs e ds = (e₁, log₁, none))
    (h₂ : fill_level fs e ls = (e₂, log₂, none)) :
    (∀ l : String, ∀ x ∈ alGetD l e₁.children_by_level,
       x ∈ alGetD l e.children_by_level ∨ x.level = l) ∧
    (∀ l : String, ∀ x ∈ alGetD l e₂.children_by_level,
       x ∈ alGetD l e.children_by_level ∨ (x.level = l ∧ l ∈ ls)) := by
  constructor
  · intro l x hx
    exact (fdg_ok_buckets fs _ e [] e₁ log₁ h₁).2 l x hx
  · intro l x hx
    unfold fill_level at h₂
    split at h₂
    · cases h₂
    · rename_i e1 m hp
      have hf := flp1_fields ((dedupF ls).filter (fun l => l ∉ e.levels_searched)) e 0
      rw [hp] at hf
      rcases (flg_ok_buckets fs (dedupF ls) _ e1 [] e₂ log₂ h₂).2 l x hx with hx1 | hx1
      · left
        rw [show e1.children_by_level = e.children_by_level from hf.2.2.2.1] at hx1
        exact hx1
      · exact Or.inr ⟨hx1.1, mem_dedupF.1 hx1.2⟩

/-- C2 witness: the amended theorem instantiated on a depth-2 distance scan
and a `phylum` rank scan from the root index. -/
theorem c2_witness :
    (⟨pAni, "kingdom", none, none⟩ : LightEntry) ∈ alGetD "kingdom" eA.children_by_level ∨
    (⟨pAni, "kingdom", none, none⟩ : LightEntry).level = "kingdom" :=
  (c2_amended fsA eA [2] ["phylum"]
    (fill_distance fsA eA [2]).1 (fill_level fsA eA ["phylum"]).1
    (fill_distance fsA eA [2]).2.1 (fill_level fsA eA ["phylum"]).2.1
    (by decide) (by decide)).1 "kingdom" ⟨pAni, "kingdom", none, none⟩ (by decide)

/-- C3 counterexample: the query `ls -d0` on the root index succeeds and
afterwards `distanceBuckets[0]` holds exactly the indexed node itself (same
path as the current node), so distance 0 is not "never stored". -/
theorem c3_counterexample :
    Entry.init fsA pLife = .ok eA ∧
    (Entry.lsgoto fsA eA false ["-d0"]).map
      (fun r => alGetD 0 r.1.children_by_distance) =
      .ok [⟨pLife, "life", none, none⟩] ∧
    (⟨pLife, "life", none, none⟩ : LightEntry).path = eA.light.path := by
  decide

/-- C3 as amended: `distanceBuckets[0]` stays empty through construction and
through every fill whose requested distances are all positive (rank fills
only ever scan depths `>= 1`); only a query that explicitly requests distance
`0` (or a non-positive distance) can store the indexed node itself there. -/
theorem c3_amended (fs : FS) (p : Path) (e : Entry) (ds : List Int) (ls : List String)
    (e₀ e₁ e₂ : Entry) (log₁ log₂ : ScanLog) :
    (Entry.init fs p = .ok e₀ → alGetD 0 e₀.children_by_distance = []) ∧
    ((∀ d ∈ ds, 1 ≤ d) → fill_distance fs e ds = (e₁, log₁, none) →
       alGetD 0 e₁.children_by_distance = alGetD 0 e.children_by_distance) ∧
    (fill_level fs e ls = (e₂, log₂, none) →
       alGetD 0 e₂.children_by_distance = alGetD 0 e.children_by_distance) := by
  have main : ∀ (e' e'' : Entry) (ds' : List Int) (log' : ScanLog),
      (∀ d ∈ ds', 1 ≤ d) → fill_distance fs e' ds' = (e'', log', none) →
      alGetD 0 e''.children_by_distance = alGetD 0 e'.children_by_distance := by
    intro e' e'' ds' log' hpos h
    apply (fdg_ok_buckets fs _ e' [] e'' log' h).1 0
    intro h0
    have := hpos 0 (mem_dedupF.1 (List.mem_filter.1 h0).1)
    omega
  refine ⟨?_, main e e₁ ds log₁, ?_⟩
  · intro h
    unfold Entry.init at h
    split at h
    · cases h
    · rename_i light hl
      split at h
      · cases h
      · rename_i e1 log hfd
        cases h
        have h1 := main _ e1 [1] log (by intro d hd; rw [List.mem_singleton] at hd; omega) hfd
        show alGetD 0 e1.children_by_distance = []
        rw [h1]
        exact alGetD_distance_dict 0
  · intro h
    unfold fill_level at h
    split at h
    · cases h
    · rename_i e1 m hp
      have hf := flp1_fields ((dedupF ls).filter (fun l => l ∉ e.levels_searched)) e 0
      rw [hp] at hf
      have h1 := (flg_ok_buckets fs (dedupF ls) _ e1 [] e₂ log₂ h).1 0
        (by
          intro h0
          have := (mem_rangeInt.1 (List.mem_filter.1 h0).1).1
          omega)
      rw [h1, show e1.children_by_distance = e.children_by_distance from hf.2.2.1]

/-- C3 witness: the amended theorem instantiated on the concrete tree: the
fresh root bucket 0 is empty and stays empty across a depth-2 distance fill
and a `phylum` rank fill. -/
theorem c3_witness :
    alGetD 0 eA.children_by_distance = [] ∧
    alGetD 0 (fill_distance fsA eA [2]).1.children_by_distance =
      alGetD 0 eA.children_by_distance ∧
    alGetD 0 (fill_level fsA eA ["phylum"]).1.children_by_distance =
      alGetD 0 eA.children_by_distance := by
  have h := c3_amended fsA pLife eA [2] ["phylum"] eA (fill_distance fsA eA [2]).1
    (fill_level fsA eA ["phylum"]).1 (fill_distance fsA eA [2]).2.1
    (fill_level fsA eA ["phylum"]).2.1
  exact ⟨h.1 (by decide), h.2.1 (by decide) (by decide), h.2.2 (by decide)⟩

/-- C7 counterexample: in the tree whose depth-2 directory lacks its
descriptor, a depth-2 fill from the root aborts with the load error (it is
propagated, not skipped), yet distance 2 has been recorded in
`_distances_searched` by the interrupted scan — the cache does treat the
incomplete scan as satisfied, contrary to the claim. -/
theorem c7_counterexample :
    Entry.init fsB pLife = .ok eB ∧
    (fill_distance fsB eB [2]).2.2 = some (.fileNotFound pBrok) ∧
    (2 : Int) ∈ (fill_distance fsB eB [2]).1.distances_searched := by
  decide

/-- C7 as amended: a missing descriptor during a distance scan is propagated
to the caller (whenever some enumerated directory lacks its descriptor the
fill reports an error instead of skipping it), but the scanned distance is
added to `_distances_searched` before the enumeration, so even an interrupted
scan leaves the distance recorded as satisfied. -/
theorem c7_amended (fs : FS) (e : Entry) (d : Int) (h1 : d ∉ e.distances_searched) :
    d ∈ (fill_distance fs e [d]).1.distances_searched ∧
    ((∃ p ∈ getNewPaths fs e.light.path d e.path_cache, fs.desc p = none) →
       (fill_distance fs e [d]).2.2 ≠ none) := by
  have htodo : (dedupF [d]).filter (fun x => x ∉ e.distances_searched) = [d] := by
    show List.filter _ [d] = [d]
    rw [List.filter_cons]
    simp [h1]
  unfold fill_distance
  rw [htodo]
  simp only [fill_dist_go]
  split
  · rename_i e1 er hb
    have hf := fdb_fields fs d (getNewPaths fs e.light.path d e.path_cache)
      { e with distances_searched := sinsert d e.distances_searched }
    rw [hb] at hf
    constructor
    · show d ∈ e1.distances_searched
      rw [hf.2.2.1]
      exact self_mem_sinsert d _
    · intro _
      simp
  · rename_i e1 hb
    have hf := fdb_fields fs d (getNewPaths fs e.light.path d e.path_cache)
      { e with distances_searched := sinsert d e.distances_searched }
    rw [hb] at hf
    constructor
    · show d ∈ e1.distances_searched
      rw [hf.2.2.1]
      exact self_mem_sinsert d _
    · intro hmiss
      have := fdb_err_of_missing fs d (getNewPaths fs e.light.path d e.path_cache)
        { e with distances_searched := sinsert d e.distances_searched } hmiss
      rw [hb] at this
      exact absurd rfl this

/-- C7 witness: the amended theorem applied to the broken concrete tree. -/
theorem c7_witness :
    (2 : Int) ∈ (fill_distance fsB eB [2]).1.distances_searched ∧
    (fill_distance fsB eB [2]).2.2 ≠ none := by
  have h := c7_amended fsB eB 2 (by decide)
  exact ⟨h.1, h.2 (by decide)⟩

/-- C5: the lazy fills are idempotent — repeating a successful
`ensureDistances` or `ensureRanks` call with the same arguments returns the
state unchanged and performs no filesystem enumeration at all (the scan log
of the second call is empty, so no directory is globbed and no descriptor is
loaded). -/
theorem c5_idempotent (fs : FS) (e : Entry) (ds : List Int) (ls : List String)
    (e₁ e₂ : Entry) (log₁ log₂ : ScanLog)
    (h₁ : fill_distance fs e ds = (e₁, log₁, none))
    (h₂ : fill_level fs e ls = (e₂, log₂, none)) :
    fill_distance fs e₁ ds = (e₁, [], none) ∧ fill_level fs e₂ ls = (e₂, [], none) := by
  constructor
  · have hall := fill_distance_ok_searched h₁
    unfold fill_distance
    rw [List.filter_eq_nil_iff.2 (by
      intro a ha
      simp only [decide_eq_true_eq, not_not]
      exact hall a ha)]
    rfl
  · have hall := fill_level_ok_searched h₂
    unfold fill_level
    rw [List.filter_eq_nil_iff.2 (by
      intro a ha
      simp only [decide_eq_true_eq, not_not]
      exact hall a ha)]
    rfl

/-- C5 witness: idempotence instantiated on a depth-2 distance fill and a
`phylum` rank fill from the concrete root index. -/
theorem c5_witness :
    fill_distance fsA (fill_distance fsA eA [2]).1 [2] =
      ((fill_distance fsA eA [2]).1, [], none) ∧
    fill_level fsA (fill_level fsA eA ["phylum"]).1 ["phylum"] =
      ((fill_level fsA eA ["phylum"]).1, [], none) :=
  c5_idempotent fsA eA [2] ["phylum"]
    (fill_distance fsA eA [2]).1 (fill_level fsA eA ["phylum"]).1
    (fill_distance fsA eA [2]).2.1 (fill_level fsA eA ["phylum"]).2.1
    (by decide) (by decide)

/-- C1 counterexample: at the `Animalia` node (rank kingdom, order 2), a rank
query for `life` (order 0) — whose absolute order difference is 2, with depth
2 not yet scanned — enumerates no depth at all: the code clamps the signed
difference `0 - 2` at zero instead of taking the absolute value, so a rank
above the current node yields no positive scan depth. -/
theorem c1_counterexample :
    Entry.init fsA pAni = .ok eAni ∧
    eAni.light.level = "kingdom" ∧
    levelOrder "kingdom" = some 2 ∧
    levelOrder "life" = some 0 ∧
    eAni.distances_searched = [1] ∧
    "life" ∉ eAni.levels_searched ∧
    (fill_level fsA eAni ["life"]).2.1 = [] ∧
    (fill_level fsA eAni ["life"]).2.2 = none := by
  decide

/-- C1 as amended: a successful `ensureRanks` call enumerates exactly the
depths `1..maxDepth` not already in `scannedDistances`, where `maxDepth` is
the maximum over the newly requested ranks of the signed difference (target
order minus the indexed node's order), clamped below at zero — not the
absolute difference: a requested rank whose order is at or above the current
node's contributes no scan depth. -/
theorem c1_amended (fs : FS) (e : Entry) (ls : List String) (e' : Entry) (log : ScanLog)
    (h : fill_level fs e ls = (e', log, none)) (d : Int) :
    d ∈ log.map Prod.fst ↔
      (1 ≤ d ∧ d ∉ e.distances_searched ∧
       ∃ l ∈ ls, l ∉ e.levels_searched ∧ ∃ ol os : Int,
         levelOrder l = some ol ∧ levelOrder e.light.level = some os ∧ d ≤ ol - os) := by
  unfold fill_level at h
  split at h
  · cases h
  · rename_i e1 m hp
    have hf := flp1_fields ((dedupF ls).filter (fun l => l ∉ e.levels_searched)) e 0
    rw [hp] at hf
    have hlog := flg_ok_log fs (dedupF ls) _ e1 [] e' log h
    rw [hlog]
    simp only [List.map_nil, List.nil_append, List.mem_filter, mem_rangeInt,
      decide_eq_true_eq]
    rw [show e1.distances_searched = e.distances_searched from hf.2.2.2.2]
    have hmax := flp1_ok_max _ _ _ _ _ hp d
    constructor
    · rintro ⟨⟨h1, h2⟩, h3⟩
      refine ⟨h1, h3, ?_⟩
      rcases hmax.1 (by omega) with h4 | ⟨l, hl, ol, os, hol, hos, hd⟩
      · omega
      · rw [List.mem_filter, mem_dedupF, decide_eq_true_eq] at hl
        exact ⟨l, hl.1, hl.2, ol, os, hol, hos, hd⟩
    · rintro ⟨h1, h2, l, hl, hls, ol, os, hol, hos, hd⟩
      refine ⟨⟨h1, ?_⟩, h2⟩
      have : d ≤ m := hmax.2 (Or.inr ⟨l,
        List.mem_filter.2 ⟨mem_dedupF.2 hl, by simpa using hls⟩, ol, os, hol, hos, hd⟩)
      omega

/-- C1 witness: the amended depth characterization instantiated at the root
(rank `life`, order 0) requesting `kingdom` (order 2): depth 2 is scanned. -/
theorem c1_witness :
    (2 : Int) ∈ (fill_level fsA eA ["kingdom"]).2.1.map Prod.fst ↔
      (1 ≤ (2 : Int) ∧ (2 : Int) ∉ eA.distances_searched ∧
       ∃ l ∈ ["kingdom"], l ∉ eA.levels_searched ∧ ∃ ol os : Int,
         levelOrder l = some ol ∧ levelOrder eA.light.level = some os ∧ 2 ≤ ol - os) :=
  c1_amended fsA eA ["kingdom"] (fill_level fsA eA ["kingdom"]).1
    (fill_level fsA eA ["kingdom"]).2.1 (by decide) 2

/-- C9: the distance buckets exist exactly for the keys `0..20`
(`range(len(LEVELS))` with 21 ranks), and a query whose parsed distance set
contains any integer outside that range can never produce a result set: the
missing dict key makes the query end in an error (a `KeyError` at the bucket
read, or already at the bucket insert for a non-positive distance whose glob
matched the node itself) instead of an empty listing. -/
theorem c9_out_of_range_distance (fs : FS) (e : Entry) (ds : List Int) (ls ns : List String)
    (d : Int) (hd : d ∈ ds) (hrange : d < 0 ∨ 20 < d)
    (hkeys : e.children_by_distance.map Prod.fst = distance_dict.map Prod.fst) :
    distance_dict.map Prod.fst = (List.range 21).map Int.ofNat ∧
    ∃ er : Err, Entry.run_query fs e ds ls ns = .error er := by
  constructor
  · decide
  · unfold Entry.run_query
    rw [if_neg (fun hc => List.ne_nil_of_mem hd hc.1)]
    unfold run_query_core
    cases hfd : fill_distance fs e ds with
    | mk e1 rest1 =>
      obtain ⟨log1, err1⟩ := rest1
      cases err1 with
      | some er => exact ⟨er, rfl⟩
      | none =>
        cases hfl : fill_level fs e1 ls with
        | mk e2 rest2 =>
          obtain ⟨log2, err2⟩ := rest2
          cases err2 with
          | some er =>
              exact ⟨er, by
                dsimp only
                rw [show fill_level fs e1 ls = (e2, log2, some er) from hfl]⟩
          | none =>
            have hk1 := fill_distance_keys fs e ds
            rw [hfd] at hk1
            have hk2 := fill_level_keys fs e1 ls
            rw [hfl] at hk2
            have hnone : alGet d e2.children_by_distance = none := by
              rw [alGet_eq_none_iff, hk2.1, hk1.1, hkeys, mem_distance_dict_keys]
              omega
            obtain ⟨er, hre⟩ := readBuckets_err_of_missing Err.keyErrorInt
              e2.children_by_distance ds [] d hd hnone
            exact ⟨er, by
              dsimp only
              rw [show fill_level fs e1 ls = (e2, log2, none) from hfl]
              dsimp only
              rw [hre]⟩

/-- C9 witness: `run_query` with distance 25 from the concrete root index
ends in the `KeyError`. -/
theorem c9_witness :
    distance_dict.map Prod.fst = (List.range 21).map Int.ofNat ∧
    ∃ er : Err, Entry.run_query fsA eA [25] [] [] = .error er :=
  c9_out_of_range_distance fsA eA [25] [] [] 25 (by decide) (by decide) (by decide)

/-- C8: for every position and every filesystem, `ls` with no argument
tokens is the very same computation as `ls -d1`: the empty token list parses
to no distances/levels/names and the default turns the distance set into
`{1}`, exactly what `-d1` parses to, so the resulting state, result set and
printed ordering are identical. -/
theorem c8_default_d1 (fs : FS) (e : Entry) :
    Entry.lsgoto fs e false [] = Entry.lsgoto fs e false ["-d1"] := rfl

/-- C6: a `goto` whose arguments parse and whose query succeeds transitions
to a freshly constructed index at the match if and only if the name-filtered
candidate set has exactly one element (printing nothing); for zero or several
candidates it keeps the current node identity and prints the no-unique-entry
notice followed by exactly the name-sorted listing that `ls` with the same
arguments would print. -/
theorem c6_goto_unique (fs : FS) (e : Entry) (args : List String)
    (ds : List Int) (ls ns : List String) (e' : Entry) (ms : List LightEntry)
    (e₂ : Entry) (out : List OutLine)
    (hp : parseArgs args = .parsed ds ls ns)
    (hq : Entry.run_query fs e ds ls ns = .ok (e', ms))
    (hr : Entry.lsgoto fs e true args = .ok (e₂, out)) :
    (∀ m, ms = [m] → Entry.init fs m.path = .ok e₂ ∧ out = []) ∧
    (ms.length ≠ 1 → e₂ = e' ∧ e₂.light = e.light ∧
       Entry.lsgoto fs e false args = .ok (e', (sortByName ms).map OutLine.entry) ∧
       out = OutLine.msg "No unique entry found:" :: (sortByName ms).map OutLine.entry) := by
  have hlight : e'.light = e.light := run_query_ok_light hq
  have hls : Entry.lsgoto fs e false args = .ok (e', (sortByName ms).map OutLine.entry) := by
    unfold Entry.lsgoto
    rw [hp]
    dsimp only
    rw [hq]
    dsimp only
    cases ms with
    | nil => simp
    | cons m rest => cases rest <;> simp
  constructor
  · intro m hm
    subst hm
    unfold Entry.lsgoto at hr
    rw [hp] at hr
    dsimp only at hr
    rw [hq] at hr
    dsimp only at hr
    split at hr
    · cases hr
    · rename_i e2' hinit
      cases hr
      exact ⟨hinit, rfl⟩
  · intro hlen
    unfold Entry.lsgoto at hr
    rw [hp] at hr
    dsimp only at hr
    rw [hq] at hr
    dsimp only at hr
    cases ms with
    | nil =>
      dsimp only at hr
      cases hr
      exact ⟨rfl, hlight, hls, by simp⟩
    | cons m rest =>
      cases rest with
      | nil => exact absurd rfl hlen
      | cons m2 rest2 =>
        dsimp only at hr
        cases hr
        exact ⟨rfl, hlight, hls, by simp⟩

/-- C6 witness: `goto eukarya` at the concrete root has the unique match
`Eukarya` and transitions to the freshly built index there with no output. -/
theorem c6_witness :
    Entry.init fsA (⟨pEuk, "domain", none, none⟩ : LightEntry).path = .ok eGoto ∧
    ([] : List OutLine) = [] :=
  (c6_goto_unique fsA eA ["eukarya"] [] [] ["eukarya"] c6run.1
     [⟨pEuk, "domain", none, none⟩] eGoto []
     (by decide) (by decide) (by decide)).1 ⟨pEuk, "domain", none, none⟩ rfl

/-- C4 counterexample: the lowercased short code `k` does resolve — to
`kingdom` — even though `k` is no full rank name (in any case) and no short
code equals `k` case-sensitively; `parse_level` upper-cases the token before
comparing it with the short codes, so short-code matching is not
case-sensitive. -/
theorem c4_counterexample :
    parse_level "k" = some "kingdom" ∧
    "k" ∉ LEVELS.map (fun t => t.1) ∧
    (∀ t ∈ LEVELS, t.2.2 ≠ "k") := by
  decide

/-- C4 as amended: `-l<rank>` resolves exactly when `<rank>` matches a full
rank name case-insensitively or a short display code case-insensitively (the
token is upper-cased before the short-code comparison, so `k` finds `K`);
an unresolved rank aborts the command with a parse error naming the offending
`arg[2:]` text and the state unchanged. -/
theorem c4_amended :
    (∀ s : String, (parse_level s).isSome ↔
       ∃ t ∈ LEVELS, t.1 = strLower s ∨ t.2.2 = strUpper s) ∧
    (∀ (fs : FS) (e : Entry) (g : Bool) (r : String), parse_level r = none →
       Entry.lsgoto fs e g [String.mk ('-' :: 'l' :: r.data)] =
         .ok (e, [.msg ("No such level \x27" ++ r ++ "\x27")])) := by
  constructor
  · intro s
    unfold parse_level
    rw [Option.isSome_map', List.find?_isSome]
    constructor
    · rintro ⟨t, ht, hp⟩
      simp only [Bool.or_eq_true, beq_iff_eq] at hp
      exact ⟨t, ht, hp⟩
    · rintro ⟨t, ht, hp⟩
      exact ⟨t, ht, by simp only [Bool.or_eq_true, beq_iff_eq]; exact hp⟩
  · intro fs e g r hr
    have hteq : argTag (String.mk ('-' :: 'l' :: r.data)) = ['-', 'l'] := rfl
    have hrest : argRest (String.mk ('-' :: 'l' :: r.data)) = r := rfl
    have hparse : parseArgs [String.mk ('-' :: 'l' :: r.data)] =
        .perr (.msg ("No such level \x27" ++ r ++ "\x27")) := by
      unfold parseArgs parseArgsGo
      rw [hteq, if_neg (by decide), if_pos rfl, hrest, hr]
    unfold Entry.lsgoto
    rw [hparse]

/-- C4 witness: the resolution rule at the token `K-` and the abort behavior
of `goto -lxyz` at the concrete root. -/
theorem c4_witness :
    ((parse_level "K-").isSome ↔
       ∃ t ∈ LEVELS, t.1 = strLower "K-" ∨ t.2.2 = strUpper "K-") ∧
    Entry.lsgoto fsA eA true [String.mk ('-' :: 'l' :: "xyz".data)] =
      .ok (eA, [.msg ("No such level \x27" ++ "xyz" ++ "\x27")]) :=
  ⟨c4_amended.1 "K-", c4_amended.2 fsA eA true "xyz" (by decide)⟩

end Life
